import Mathlib

/-!
# Socketmap lookup service (`services/socketmap/main.go`)

A shallow embedding of the netstring codec (`readNetstring`, `writeNetstring`), the
connection handler (`handleConnection`), the request dispatcher (`processRequest`
and the three table handlers), the cached
resolvers (`userExists`, `domainExists`, `resolveAlias`) and the built-in test
directories, followed by theorems about them.

Conventions of the embedding:

* a Go `string` / `[]byte` is a `List UInt8`;
* `time.Time` is a natural number of nanoseconds, `time.Second = 10^9`; the clock
  readings that one call of a resolver makes are all the `now` it is given;
* the global `cache` map and the sequence of directory queries made so far are
  threaded through the resolvers as an explicit `State`;
* a `net.Conn` seen through `bufio.Reader` is the list of byte chunks that the
  successive `Read` calls on the connection will deliver, followed by end of stream.
-/

namespace Socketmap

/-! ## Byte strings -/

/-- The UTF-8 bytes of a string literal. -/
def bytes (s : String) : List UInt8 :=
  s.data.flatMap String.utf8EncodeChar

/-! ## The transport and `bufio.Reader` -/

/-- Size of the buffer that `bufio.NewReader` allocates (`defaultBufSize`). -/
def defaultBufSize : Nat := 4096

/-- One `Read(p)` on the connection with `len(p) = cap`: the bytes delivered and
the rest of the script. The connection hands over at most `cap` bytes of the chunk at the
head of the script; what does not fit stays for the next call. No bytes means the
stream has ended (`io.EOF`, or the read deadline expired). Empty chunks carry no
data and are skipped: a network read returns at least one byte or an error. -/
def connRead : List (List UInt8) → Nat → List UInt8 × List (List UInt8)
  | [], _ => ([], [])
  | [] :: rest, cap => connRead rest cap
  | (b :: c) :: rest, cap =>
    if (b :: c).length ≤ cap then (b :: c, rest)
    else ((b :: c).take cap, (b :: c).drop cap :: rest)

/-- A `bufio.Reader` over a connection: `buf` is the unread part of its buffer
(`b.buf[b.r:b.w]`), `rd` the script of the connection underneath. The sticky error
field `b.err` is not kept: every operation used here that sets it also returns and
clears it before handing control back. -/
structure Reader where
  buf : List UInt8
  rd : List (List UInt8)
deriving DecidableEq, Repr

/-- Reader made by `bufio.NewReader(conn)`: nothing buffered yet. -/
def NewReader (conn : List (List UInt8)) : Reader := ⟨[], conn⟩

/-- Number of bytes the connection has yet to deliver. -/
def pending (rd : List (List UInt8)) : Nat := (rd.map List.length).sum

/-- Errors returned by `readNetstring`, one per `fmt.Errorf` in it. -/
inductive NetstringError where
  | failedToReadLength
  | invalidLength
  | failedToReadData
  | failedToReadComma
  | expectedComma (got : UInt8)
deriving DecidableEq, Repr

/-- Result of a call that may return a value, return an error, or abort with a
run-time panic. -/
inductive Outcome (α : Type) where
  | ok (a : α)
  | error (e : NetstringError)
  | panic
deriving DecidableEq, Repr

/-- Split at the first occurrence of `delim`: the bytes up to and including it, and
the bytes after it; `none` when `delim` does not occur. -/
def splitAfter (delim : UInt8) : List UInt8 → Option (List UInt8 × List UInt8)
  | [] => none
  | b :: rest =>
    if b = delim then some ([b], rest)
    else match splitAfter delim rest with
      | some (pre, post) => some (b :: pre, post)
      | none => none

/-- The loop of `bufio.Reader.ReadString(delim)` (`collectFragments` around
`ReadSlice`). `acc` holds the fragments collected so far. Each round looks for the
delimiter in the buffered bytes; when it is absent, a full buffer is moved to `acc`,
and the buffer is refilled by one read of the connection into its free space. At
end of stream everything read is returned with `false`. `fuel` bounds the number
of rounds; `ReadString` supplies more than can be used. -/
def ReadStringLoop (delim : UInt8) :
    Nat → List UInt8 → Reader → (List UInt8 × Bool) × Reader
  | 0, acc, r => ((acc ++ r.buf, false), ⟨[], r.rd⟩)
  | fuel + 1, acc, r =>
    match splitAfter delim r.buf with
    | some (pre, post) => ((acc ++ pre, true), ⟨post, r.rd⟩)
    | none =>
      let acc1 := if defaultBufSize ≤ r.buf.length then acc ++ r.buf else acc
      let kept := if defaultBufSize ≤ r.buf.length then [] else r.buf
      let got := connRead r.rd (defaultBufSize - kept.length)
      if got.1 = [] then ((acc1 ++ kept, false), ⟨[], got.2⟩)
      else ReadStringLoop delim fuel acc1 ⟨kept ++ got.1, got.2⟩

/-- Embeds `bufio.Reader.ReadString(delim)`: reads until the first `delim`, returning the
bytes up to and including it and `true`, or all remaining bytes and `false` when the
stream ends first. -/
def ReadString (r : Reader) (delim : UInt8) : (List UInt8 × Bool) × Reader :=
  ReadStringLoop delim (pending r.rd + 1) [] r

/-- Embeds `bufio.Reader.Read(p)` with `len(p) = n`: the bytes copied into `p`, or
`none` on a read error. Buffered bytes are served first, and then alone; with an
empty buffer there is exactly one read of the connection, straight into `p` when
`p` is at least as large as the buffer, through the buffer otherwise. Fewer than
`n` bytes may come back without any error. -/
def Read (r : Reader) (n : Nat) : Option (List UInt8) × Reader :=
  if n = 0 then (some [], r)
  else if r.buf = [] then
    if defaultBufSize ≤ n then
      let got := connRead r.rd n
      if got.1 = [] then (none, ⟨[], got.2⟩) else (some got.1, ⟨[], got.2⟩)
    else
      let got := connRead r.rd defaultBufSize
      if got.1 = [] then (none, ⟨[], got.2⟩)
      else (some (got.1.take n), ⟨got.1.drop n, got.2⟩)
  else (some (r.buf.take n), ⟨r.buf.drop n, r.rd⟩)

/-- Embeds `bufio.Reader.ReadByte()`: the next byte, refilling an empty buffer from the
connection; `none` at end of stream. -/
def ReadByte (r : Reader) : Option UInt8 × Reader :=
  match r.buf with
  | b :: rest => (some b, ⟨rest, r.rd⟩)
  | [] =>
    match connRead r.rd defaultBufSize with
    | (b :: rest, rd1) => (some b, ⟨rest, rd1⟩)
    | ([], rd1) => (none, ⟨[], rd1⟩)

/-! ## `strings` and `strconv` -/

/-- Embeds `strings.TrimSuffix(s, suffix)`. -/
def TrimSuffix (s suffix : List UInt8) : List UInt8 :=
  if suffix.isSuffixOf s then s.take (s.length - suffix.length) else s

/-- Value of a run of ASCII decimal digits, most significant first, continuing from
`acc`; `none` if a byte is not a digit. -/
def parseDigits : List UInt8 → Nat → Option Nat
  | [], acc => some acc
  | ch :: rest, acc =>
    if 48 ≤ ch.toNat ∧ ch.toNat ≤ 57 then parseDigits rest (acc * 10 + (ch.toNat - 48))
    else none

/-- Embeds `strconv.Atoi` for a 64-bit `int`: an optional `+` or `-`, then one or more
decimal digits, and a value that fits the `int`; anything else is an error
(`none`). -/
def Atoi (s : List UInt8) : Option Int :=
  let neg := s.head? = some 45
  let digits := if s.head? = some 45 ∨ s.head? = some 43 then s.tail else s
  if digits = [] then none
  else match parseDigits digits 0 with
    | none => none
    | some n =>
      if neg then (if n ≤ 2 ^ 63 then some (-(n : Int)) else none)
      else (if n < 2 ^ 63 then some (n : Int) else none)

/-- Largest slice length that `make([]byte, n)` accepts (`maxAlloc` on 64-bit
Linux); a longer or a negative length panics, and an allocation within the limit is
taken to succeed. -/
def maxAlloc : Nat := 2 ^ 48

/-- Digits of `n`, most significant first, in front of `acc`. -/
def formatDigits : Nat → Nat → List UInt8 → List UInt8
  | 0, _, acc => acc
  | fuel + 1, n, acc =>
    if n < 10 then UInt8.ofNat (48 + n) :: acc
    else formatDigits fuel (n / 10) (UInt8.ofNat (48 + n % 10) :: acc)

/-- The `%d` verb of `fmt.Sprintf` on a non-negative `int`. -/
def formatInt (n : Nat) : List UInt8 := formatDigits (n + 1) n []

/-! ## The netstring codec -/

/-- Embeds `readNetstring`: the decoded payload, an error, or a panic, and the reader
afterwards. -/
def readNetstring (reader : Reader) : Outcome (List UInt8) × Reader :=
  match ReadString reader 58 with
  | ((_, false), r1) => (.error .failedToReadLength, r1)
  | ((lengthStr, true), r1) =>
    match Atoi (TrimSuffix lengthStr [58]) with
    | none => (.error .invalidLength, r1)
    | some length =>
      if length < 0 ∨ (maxAlloc : Int) < length then (.panic, r1)
      else
        match Read r1 length.toNat with
        | (none, r2) => (.error .failedToReadData, r2)
        | (some got, r2) =>
          let data := got ++ List.replicate (length.toNat - got.length) 0
          match ReadByte r2 with
          | (none, r3) => (.error .failedToReadComma, r3)
          | (some comma, r3) =>
            if comma ≠ 44 then (.error (.expectedComma comma), r3)
            else (.ok data, r3)

/-- A `net.Conn` as the handler sees it: the script of its reads, the bytes written
to it so far, and whether writes still succeed. -/
structure Conn where
  rd : List (List UInt8)
  wr : List UInt8
  writable : Bool
deriving DecidableEq, Repr

/-- Embeds `conn.Write(b)`: appends to the written bytes, or fails (`false`) on a
connection that no longer takes writes. -/
def Conn.Write (conn : Conn) (b : List UInt8) : Conn × Bool :=
  if conn.writable then ({ conn with wr := conn.wr ++ b }, true) else (conn, false)

/-- The local `netstr` of `writeNetstring`: `fmt.Sprintf("%d:%s,", len(data), data)`. -/
def netstr (data : List UInt8) : List UInt8 :=
  formatInt data.length ++ [58] ++ data ++ [44]

/-- Embeds `writeNetstring`: formats `"%d:%s,"` from `len(data)` and `data` and writes it
to the connection; the flag is `err == nil`. -/
def writeNetstring (conn : Conn) (data : List UInt8) : Conn × Bool :=
  conn.Write (netstr data)

/-! ## UTF-8 and the `unicode` tables -/

/-- The replacement rune `utf8.RuneError`, produced for every byte that does not
start a valid encoding. -/
def RuneError : Nat := 0xFFFD

/-- A UTF-8 continuation byte (`0x80`..`0xBF`). -/
def isCont (b : UInt8) : Bool := 0x80 ≤ b.toNat ∧ b.toNat ≤ 0xBF

/-- Embeds `utf8.DecodeRuneInString`: the first rune of `s` and its width in bytes; an
invalid or incomplete encoding gives `(RuneError, 1)`, the empty string
`(RuneError, 0)`. -/
def DecodeRune : List UInt8 → Nat × Nat
  | [] => (RuneError, 0)
  | b0 :: rest =>
    let x := b0.toNat
    if x < 0x80 then (x, 1)
    else if x < 0xC2 then (RuneError, 1)
    else if x < 0xE0 then
      match rest with
      | b1 :: _ =>
        if isCont b1 then ((x % 32) * 64 + b1.toNat % 64, 2) else (RuneError, 1)
      | [] => (RuneError, 1)
    else if x < 0xF0 then
      match rest with
      | b1 :: b2 :: _ =>
        let lo := if x = 0xE0 then 0xA0 else 0x80
        let hi := if x = 0xED then 0x9F else 0xBF
        if lo ≤ b1.toNat ∧ b1.toNat ≤ hi ∧ isCont b2 then
          ((x % 16) * 4096 + (b1.toNat % 64) * 64 + b2.toNat % 64, 3)
        else (RuneError, 1)
      | _ => (RuneError, 1)
    else if x < 0xF5 then
      match rest with
      | b1 :: b2 :: b3 :: _ =>
        let lo := if x = 0xF0 then 0x90 else 0x80
        let hi := if x = 0xF4 then 0x8F else 0xBF
        if lo ≤ b1.toNat ∧ b1.toNat ≤ hi ∧ isCont b2 ∧ isCont b3 then
          ((x % 8) * 262144 + (b1.toNat % 64) * 4096 + (b2.toNat % 64) * 64
            + b3.toNat % 64, 4)
        else (RuneError, 1)
      | _ => (RuneError, 1)
    else (RuneError, 1)

/-- Embeds `utf8.AppendRune`: the UTF-8 encoding of a rune; surrogates and values
past `U+10FFFF` are encoded as `RuneError`. -/
def EncodeRune (r : Nat) : List UInt8 :=
  if r < 0x80 then [UInt8.ofNat r]
  else if r < 0x800 then [UInt8.ofNat (0xC0 + r / 64), UInt8.ofNat (0x80 + r % 64)]
  else if (0xD800 ≤ r ∧ r ≤ 0xDFFF) ∨ 0x10FFFF < r then [0xEF, 0xBF, 0xBD]
  else if r < 0x10000 then
    [UInt8.ofNat (0xE0 + r / 4096), UInt8.ofNat (0x80 + r / 64 % 64),
      UInt8.ofNat (0x80 + r % 64)]
  else
    [UInt8.ofNat (0xF0 + r / 262144), UInt8.ofNat (0x80 + r / 4096 % 64),
      UInt8.ofNat (0x80 + r / 64 % 64), UInt8.ofNat (0x80 + r % 64)]

/-- The runes of a string in the order of `for _, r := range s`, each with the
bytes it was decoded from. `fuel` bounds the number of runes; `runes` passes the
byte length. -/
def rangeString : Nat → List UInt8 → List (Nat × List UInt8)
  | 0, _ => []
  | _ + 1, [] => []
  | fuel + 1, b :: rest =>
    let d := DecodeRune (b :: rest)
    (d.1, (b :: rest).take d.2) :: rangeString fuel ((b :: rest).drop d.2)

/-- The runes of `s`, each with its bytes. -/
def runes (s : List UInt8) : List (Nat × List UInt8) := rangeString s.length s

/-- Embeds `unicode.IsSpace`. -/
def IsSpace (r : Nat) : Bool :=
  (9 ≤ r ∧ r ≤ 13) ∨ r = 0x20 ∨ r = 0x85 ∨ r = 0xA0 ∨ r = 0x1680
    ∨ (0x2000 ≤ r ∧ r ≤ 0x200A) ∨ r = 0x2028 ∨ r = 0x2029 ∨ r = 0x202F
    ∨ r = 0x205F ∨ r = 0x3000

/-- Embeds `unicode.ToLower` on the runes that matter to this program: the ASCII
letters and the two other runes whose lower case is an ASCII letter (`U+0130` and
the Kelvin sign `U+212A`). Every remaining rune is left as it is; its true lower
case is not an ASCII rune either, and the program only compares lowered text with
ASCII literals. -/
def ToLowerRune (r : Nat) : Nat :=
  if 65 ≤ r ∧ r ≤ 90 then r + 32
  else if r = 0x130 then 0x69
  else if r = 0x212A then 0x6B
  else r

/-- Embeds `unicode.SimpleFold` on the case orbits that contain an ASCII letter:
`K k U+212A`, `S s U+017F`, and `X x` for the other letters. Every remaining rune
is left as it is; `EqualFold` only folds the smaller rune of a pair, which is the
ASCII one whenever one of its arguments is ASCII. -/
def SimpleFold (r : Nat) : Nat :=
  if 65 ≤ r ∧ r ≤ 90 then r + 32
  else if r = 107 then 0x212A
  else if r = 115 then 0x17F
  else if 97 ≤ r ∧ r ≤ 122 then r - 32
  else if r = 0x212A then 75
  else if r = 0x17F then 83
  else r

/-! ## `strings` -/

/-- Fields cut out of a rune sequence by `strings.FieldsFunc(s, unicode.IsSpace)`;
`cur` is the field being collected. -/
def fieldsOf : List (Nat × List UInt8) → List UInt8 → List (List UInt8)
  | [], cur => if cur = [] then [] else [cur]
  | (r, bs) :: rest, cur =>
    if IsSpace r then
      (if cur = [] then fieldsOf rest [] else cur :: fieldsOf rest [])
    else fieldsOf rest (cur ++ bs)

/-- Embeds `strings.Fields`: the maximal runs of runes that are not white space. -/
def Fields (s : List UInt8) : List (List UInt8) := fieldsOf (runes s) []

/-- Embeds `strings.ToLower`: every rune replaced by the encoding of its lower case. -/
def ToLower (s : List UInt8) : List UInt8 :=
  (runes s).flatMap (fun x => EncodeRune (ToLowerRune x.1))

/-- Embeds `strings.HasSuffix`. -/
def HasSuffix (s suffix : List UInt8) : Bool := suffix.isSuffixOf s

/-- The search of `strings.EqualFold` for `tr` in the case orbit of `sr`, where
`sr < tr`: it steps through the orbit while the runes stay below `tr`. -/
def foldSearch : Nat → Nat → Nat → Nat → Nat
  | 0, _, _, r => r
  | fuel + 1, sr, tr, r =>
    if r ≠ sr ∧ r < tr then foldSearch fuel sr tr (SimpleFold r) else r

/-- The test that `strings.EqualFold` makes on a pair of runes. -/
def foldEq (s t : Nat) : Bool :=
  if t = s then true
  else
    let sr := min s t
    let tr := max s t
    if tr < 0x80 then 65 ≤ sr ∧ sr ≤ 90 ∧ tr = sr + 32
    else foldSearch 4 sr tr (SimpleFold sr) = tr

/-- Rune-wise comparison of two rune sequences under case folding. -/
def equalFoldRunes : List (Nat × List UInt8) → List (Nat × List UInt8) → Bool
  | [], [] => true
  | x :: xs, y :: ys => foldEq x.1 y.1 && equalFoldRunes xs ys
  | _, _ => false

/-- Embeds `strings.EqualFold`: equality of the two strings, rune by rune, under
simple Unicode case folding. -/
def EqualFold (s t : List UInt8) : Bool := equalFoldRunes (runes s) (runes t)

/-! ## The built-in test directories -/

/-- Embeds `checkUserInTestDB`: the four test users, compared case-insensitively, and
every address in one of the two allowed domains. -/
def checkUserInTestDB (email : List UInt8) : Bool :=
  let testUsers := [bytes "test@example.com", bytes "user@example.com",
    bytes "admin@example.com", bytes "postmaster@example.com"]
  let allowedDomains := [bytes "example.com", bytes "test.com"]
  if testUsers.any (fun user => EqualFold email user) then true
  else if allowedDomains.any
      (fun domain => HasSuffix (ToLower email) (bytes "@" ++ domain)) then true
  else false

/-- Embeds `checkDomainInTestDB`: the three accepted domains, compared
case-insensitively. -/
def checkDomainInTestDB (domain : List UInt8) : Bool :=
  let allowedDomains := [bytes "example.com", bytes "test.com", bytes "localhost"]
  allowedDomains.any (fun allowed => EqualFold domain allowed)

/-- The `aliases` map literal of `checkAliasInTestDB`. -/
def aliases : List (List UInt8 × List UInt8) :=
  [(bytes "postmaster@example.com", bytes "admin@example.com"),
   (bytes "abuse@example.com", bytes "admin@example.com"),
   (bytes "hostmaster@example.com", bytes "admin@example.com"),
   (bytes "webmaster@example.com", bytes "admin@example.com"),
   (bytes "info@example.com", bytes "admin@example.com"),
   (bytes "support@test.com", bytes "help@test.com")]

/-- Embeds `checkAliasInTestDB`: the destination stored under the lower-cased address,
or the empty string. -/
def checkAliasInTestDB (address : List UInt8) : List UInt8 :=
  match aliases.lookup (ToLower address) with
  | some destination => destination
  | none => []

/-! ## The cache and the resolvers -/

/-- Embeds `time.Second`, in nanoseconds. -/
def Second : Nat := 1000000000

/-- Embeds `cacheEntry`. -/
structure cacheEntry where
  «exists» : Bool
  expires : Nat
deriving DecidableEq, Repr

/-- The global `cache`: a Go `map[string]cacheEntry`. -/
abbrev Cache := List UInt8 → Option cacheEntry

/-- A query put to one of the test directories. -/
inductive Query where
  | user (email : List UInt8)
  | domain (domain : List UInt8)
  | alias (address : List UInt8)
deriving DecidableEq, Repr

/-- What the resolvers read and change: the cache, and the directory queries made so
far, oldest first. -/
structure State where
  cache : Cache
  queries : List Query

/-- The state at start-up: `make(map[string]cacheEntry)` and no query made. -/
def State.init : State := ⟨fun _ => none, []⟩

/-- Assignment `cache[key] = entry`. -/
def Cache.set (c : Cache) (key : List UInt8) (entry : cacheEntry) : Cache :=
  fun k => if k = key then some entry else c k

/-- Embeds `userExists`, called when the clock reads `now`: a cached entry that has not
expired is returned; otherwise the directory is queried and the answer cached for
60 seconds under the address itself. -/
def userExists (st : State) (now : Nat) (email : List UInt8) : Bool × State :=
  match st.cache email with
  | some entry =>
    if now < entry.expires then (entry.exists, st)
    else
      let found := checkUserInTestDB email
      (found, ⟨st.cache.set email ⟨found, now + 60 * Second⟩,
        st.queries ++ [.user email]⟩)
  | none =>
    let found := checkUserInTestDB email
    (found, ⟨st.cache.set email ⟨found, now + 60 * Second⟩,
      st.queries ++ [.user email]⟩)

/-- Embeds `domainExists`: as `userExists`, with the key `"domain:" + domain` and 300
seconds. -/
def domainExists (st : State) (now : Nat) (domain : List UInt8) : Bool × State :=
  let cacheKey := bytes "domain:" ++ domain
  match st.cache cacheKey with
  | some entry =>
    if now < entry.expires then (entry.exists, st)
    else
      let found := checkDomainInTestDB domain
      (found, ⟨st.cache.set cacheKey ⟨found, now + 300 * Second⟩,
        st.queries ++ [.domain domain]⟩)
  | none =>
    let found := checkDomainInTestDB domain
    (found, ⟨st.cache.set cacheKey ⟨found, now + 300 * Second⟩,
      st.queries ++ [.domain domain]⟩)

/-- Embeds `resolveAlias`. The branch taken on a live cache entry only writes log
lines and returns nothing, so with or without an entry the directory is queried,
and the entry under `"alias:" + address` is rewritten with 300 seconds to live. -/
def resolveAlias (st : State) (now : Nat) (address : List UInt8) :
    List UInt8 × State :=
  let cacheKey := bytes "alias:" ++ address
  let st1 :=
    match st.cache cacheKey with
    | some entry => if now < entry.expires then st else st
    | none => st
  let destination := checkAliasInTestDB address
  (destination, ⟨st1.cache.set cacheKey ⟨destination ≠ [], now + 300 * Second⟩,
    st1.queries ++ [.alias address]⟩)

/-! ## The dispatcher -/

/-- Embeds `handleUserExistsMap`. -/
def handleUserExistsMap (st : State) (now : Nat) (key : List UInt8) :
    List UInt8 × State :=
  let res := userExists st now key
  if res.1 then (bytes "OK " ++ key, res.2) else (bytes "NOTFOUND", res.2)

/-- Embeds `handleVirtualDomainsMap`. -/
def handleVirtualDomainsMap (st : State) (now : Nat) (domain : List UInt8) :
    List UInt8 × State :=
  let res := domainExists st now domain
  if res.1 then (bytes "OK", res.2) else (bytes "NOTFOUND", res.2)

/-- Embeds `handleVirtualAliasesMap`. -/
def handleVirtualAliasesMap (st : State) (now : Nat) (address : List UInt8) :
    List UInt8 × State :=
  let res := resolveAlias st now address
  if res.1 ≠ [] then (bytes "OK " ++ res.1, res.2) else (bytes "NOTFOUND", res.2)

/-- Embeds `processRequest`, called when the clock reads `now`: the response text and
the state afterwards. -/
def processRequest (st : State) (now : Nat) (line : List UInt8) :
    List UInt8 × State :=
  match Fields line with
  | [mapname, key] =>
    if mapname = bytes "user-exists" then handleUserExistsMap st now key
    else if mapname = bytes "virtual-domains" then handleVirtualDomainsMap st now key
    else if mapname = bytes "virtual-aliases" then handleVirtualAliasesMap st now key
    else (bytes "NOTFOUND", st)
  | _ => (bytes "PERM invalid request format", st)

/-! ## The connection handler -/

/-- How a run of `handleConnection` ends: `readNetstring` returned an error and the
handler returned; `writeNetstring` returned an error and the handler returned; a
run-time panic came out of `readNetstring`; or the bound on the number of rounds
of the model was reached, which `handleConnection` never lets happen. -/
inductive Exit where
  | readError (e : NetstringError)
  | writeError
  | panic
  | fuel
deriving DecidableEq, Repr

/-- What a run of `handleConnection` leaves behind: the connection with everything
written to it, the reader with what it has not consumed, the cache and query log,
the way the run ended, and whether the deferred `conn.Close()` has run. -/
structure Session where
  conn : Conn
  reader : Reader
  st : State
  exit : Exit
  closed : Bool

/-- The `for` loop of `handleConnection`. Round `i` decodes one frame; an error or a
panic ends the run, an empty request is skipped, and any other request is handed to
`processRequest` at the clock reading `clock i` and its response written back as a
frame, a failed write ending the run. The read and write deadlines are not
modelled apart: an expired read deadline is an end of the script, an expired write
deadline a connection that no longer takes writes. `fuel` bounds the number of
rounds. -/
def handleLoop (clock : Nat → Nat) : Nat → Nat → Reader → Conn → State → Session
  | 0, _, reader, conn, st => ⟨conn, reader, st, .fuel, false⟩
  | fuel + 1, i, reader, conn, st =>
    match readNetstring reader with
    | (.error e, r1) => ⟨conn, r1, st, .readError e, true⟩
    | (.panic, r1) => ⟨conn, r1, st, .panic, true⟩
    | (.ok request, r1) =>
      if request = [] then handleLoop clock fuel (i + 1) r1 conn st
      else
        let res := processRequest st (clock i) request
        match writeNetstring conn res.1 with
        | (conn1, false) => ⟨conn1, r1, res.2, .writeError, true⟩
        | (conn1, true) => handleLoop clock fuel (i + 1) r1 conn1 res.2

/-- Embeds `handleConnection`: a fresh `bufio.Reader` on the connection, then the loop.
Every round that does not end the run consumes at least one byte, so one round
more than there are bytes to come is enough. -/
def handleConnection (clock : Nat → Nat) (conn : Conn) (st : State) : Session :=
  handleLoop clock (pending conn.rd + 1) 0 (NewReader conn.rd) conn st

/-! ## Specification vocabulary -/

/-- States that `ds` is the decimal text of `n`: one or more ASCII digits, no leading
zero except for `0` itself, and the positional value `n`. -/
def IsDecimalOf (ds : List UInt8) (n : Nat) : Prop :=
  ds ≠ [] ∧ (∀ d ∈ ds, 48 ≤ d.toNat ∧ d.toNat ≤ 57) ∧ (ds.head? = some 48 → ds = [48]) ∧
    Nat.ofDigits 10 (ds.reverse.map (fun d => d.toNat - 48)) = n

/-- Serves a sequence of requests, each with the clock reading at which it is
processed, one after the other on the same cache: the responses in order, and the
state at the end. -/
def serve : State → List (Nat × List UInt8) → List (List UInt8) × State
  | st, [] => ([], st)
  | st, (now, line) :: rest =>
    let res := processRequest st now line
    let more := serve res.2 rest
    (res.1 :: more.1, more.2)

/-- States that the frame of the payload `p` arrives whole at the reader `r`, which is
left as `r1`: the frame is no longer than the reader's buffer, and either it stands at
the head of the buffered bytes, `r1` holding the bytes after it, or the buffer is empty
and the next read of the connection delivers it, alone or with more bytes after it, in
a chunk that the buffer takes in full, `r1` holding those bytes and the rest of the
script. -/
def ArrivesWhole (r : Reader) (p : List UInt8) (r1 : Reader) : Prop :=
  (netstr p).length ≤ defaultBufSize ∧
    ((r.buf = netstr p ++ r1.buf ∧ r1.rd = r.rd) ∨
      (r.buf = [] ∧ r.rd = (netstr p ++ r1.buf) :: r1.rd ∧
        (netstr p ++ r1.buf).length ≤ defaultBufSize))

/-! ## Theorems

### Decimal text -/

theorem toNat_digitByte (d : Nat) (h : d < 10) : (UInt8.ofNat (48 + d)).toNat = 48 + d :=
  UInt8.toNat_ofNat_of_lt (by simp [UInt8.size]; omega)

theorem formatDigits_acc (fuel n : Nat) (acc : List UInt8) :
    formatDigits fuel n acc = formatDigits fuel n [] ++ acc := by
  induction fuel generalizing n acc with
  | zero => simp [formatDigits]
  | succ f ih =>
    unfold formatDigits
    split
    · simp
    · rw [ih, ih (n / 10) [_]]; simp

theorem formatDigits_fuel (f1 f2 n : Nat) (acc : List UInt8) (h1 : n < f1) (h2 : n < f2) :
    formatDigits f1 n acc = formatDigits f2 n acc := by
  induction f1 generalizing n acc f2 with
  | zero => omega
  | succ f ih =>
    cases f2 with
    | zero => omega
    | succ g =>
      unfold formatDigits
      split
      · rfl
      · exact ih g (n / 10) _ (by omega) (by omega)

theorem formatInt_small (n : Nat) (h : n < 10) : formatInt n = [UInt8.ofNat (48 + n)] := by
  simp [formatInt, formatDigits, h]

theorem formatInt_step (n : Nat) (h : 10 ≤ n) :
    formatInt n = formatInt (n / 10) ++ [UInt8.ofNat (48 + n % 10)] := by
  have h' : ¬ n < 10 := by omega
  rw [formatInt, formatDigits, if_neg h', formatDigits_acc, formatInt]
  rw [formatDigits_fuel n (n / 10 + 1) (n / 10) [] (by omega) (by omega)]

theorem formatInt_isDecimalOf (n : Nat) : IsDecimalOf (formatInt n) n := by
  induction n using Nat.strong_induction_on with
  | _ n ih =>
    by_cases h : n < 10
    · rw [formatInt_small n h]
      refine ⟨by simp, ?_, ?_, ?_⟩
      · intro d hd
        simp only [List.mem_singleton] at hd
        subst hd
        rw [toNat_digitByte n h]; omega
      · intro h0
        simp only [List.head?_cons, Option.some.injEq] at h0
        rw [h0]
      · simp [toNat_digitByte n h]
    · have hn : 10 ≤ n := by omega
      obtain ⟨h1, h2, h3, h4⟩ := ih (n / 10) (by omega)
      rw [formatInt_step n hn]
      refine ⟨by simp, ?_, ?_, ?_⟩
      · intro d hd
        rcases List.mem_append.1 hd with hd | hd
        · exact h2 d hd
        · simp only [List.mem_singleton] at hd
          subst hd
          rw [toNat_digitByte _ (Nat.mod_lt _ (by decide))]; omega
      · intro h0
        exfalso
        cases hf : formatInt (n / 10) with
        | nil => exact h1 hf
        | cons a l =>
          rw [hf] at h0 h3 h4
          simp only [List.cons_append, List.head?_cons, Option.some.injEq] at h0
          have := h3 (by simp [h0])
          simp only [List.cons.injEq] at this
          rw [this.1, this.2] at h4
          simp [UInt8.size] at h4
          omega
      · simp only [List.reverse_append, List.reverse_cons, List.reverse_nil, List.nil_append,
          List.singleton_append, List.map_cons, Nat.ofDigits_cons]
        rw [h4, toNat_digitByte _ (Nat.mod_lt _ (by decide))]
        omega

theorem parseDigits_append (xs : List UInt8) (d : UInt8) (a : Nat) :
    parseDigits (xs ++ [d]) a =
      (parseDigits xs a).bind (fun v =>
        if 48 ≤ d.toNat ∧ d.toNat ≤ 57 then some (v * 10 + (d.toNat - 48)) else none) := by
  induction xs generalizing a with
  | nil => simp [parseDigits]
  | cons x xs ih =>
    simp only [List.cons_append, parseDigits]
    split
    · exact ih _
    · rfl

theorem parseDigits_formatInt (n : Nat) : parseDigits (formatInt n) 0 = some n := by
  induction n using Nat.strong_induction_on with
  | _ n ih =>
    by_cases h : n < 10
    · rw [formatInt_small n h]
      simp [parseDigits, toNat_digitByte n h]
      omega
    · rw [formatInt_step n (by omega), parseDigits_append, ih (n / 10) (by omega)]
      rw [Option.some_bind, toNat_digitByte _ (Nat.mod_lt n (by decide : 0 < 10))]
      rw [if_pos (by omega)]
      congr 1
      omega

/-! ### Reading a frame -/

theorem splitAfter_append (d : UInt8) (pre post : List UInt8) (h : ∀ x ∈ pre, x ≠ d) :
    splitAfter d (pre ++ d :: post) = some (pre ++ [d], post) := by
  induction pre with
  | nil => simp [splitAfter]
  | cons x xs ih =>
    have hx : x ≠ d := h x (by simp)
    rw [List.cons_append, splitAfter, if_neg hx, ih (fun y hy => h y (by simp [hy]))]
    rfl

theorem connRead_cons_fst (c : List UInt8) (rest : List (List UInt8)) (cap : Nat)
    (hc : c ≠ []) : (connRead (c :: rest) cap).1 = c.take cap := by
  cases c with
  | nil => exact absurd rfl hc
  | cons b c =>
    simp only [connRead]
    split
    · rw [List.take_of_length_le (by assumption)]
    · rfl

theorem connRead_cons_snd (c : List UInt8) (rest : List (List UInt8)) (cap : Nat)
    (hc : c ≠ []) :
    (connRead (c :: rest) cap).2 = if c.length ≤ cap then rest else c.drop cap :: rest := by
  cases c with
  | nil => exact absurd rfl hc
  | cons b c =>
    simp only [connRead]
    split <;> rfl

theorem pending_cons (c : List UInt8) (rest : List (List UInt8)) :
    pending (c :: rest) = c.length + pending rest := by
  simp [pending]

theorem ReadStringLoop_found (d : UInt8) (fuel : Nat) (acc : List UInt8) (r : Reader)
    (pre post : List UInt8) (h : splitAfter d r.buf = some (pre, post)) :
    ReadStringLoop d (fuel + 1) acc r = ((acc ++ pre, true), ⟨post, r.rd⟩) := by
  rw [ReadStringLoop, h]

theorem ReadStringLoop_fill (d : UInt8) (fuel : Nat) (acc : List UInt8) (r : Reader)
    (h : splitAfter d r.buf = none) (hlen : r.buf.length < defaultBufSize)
    (hgot : (connRead r.rd (defaultBufSize - r.buf.length)).1 ≠ []) :
    ReadStringLoop d (fuel + 1) acc r =
      ReadStringLoop d fuel acc
        ⟨r.buf ++ (connRead r.rd (defaultBufSize - r.buf.length)).1,
          (connRead r.rd (defaultBufSize - r.buf.length)).2⟩ := by
  have h0 : ¬ defaultBufSize ≤ r.buf.length := by omega
  rw [ReadStringLoop, h]
  simp only [h0, if_false, hgot]

theorem ReadString_fresh (c pre post : List UInt8) (rest : List (List UInt8))
    (hc : c.take defaultBufSize = pre ++ 58 :: post) (hpre : ∀ x ∈ pre, x ≠ 58) :
    ReadString ⟨[], c :: rest⟩ 58 =
      ((pre ++ [58], true), ⟨post, (connRead (c :: rest) defaultBufSize).2⟩) := by
  have hne : c ≠ [] := by
    intro h
    rw [h] at hc
    simp at hc
  have hlen : 0 < c.length := List.length_pos.2 hne
  obtain ⟨m, hm⟩ : ∃ m, pending (c :: rest) = m + 1 :=
    ⟨c.length + pending rest - 1, by rw [pending_cons]; omega⟩
  have hgot : (connRead (c :: rest) defaultBufSize).1 = pre ++ 58 :: post := by
    rw [connRead_cons_fst c rest _ hne, hc]
  rw [ReadString, hm]
  rw [ReadStringLoop_fill 58 (m + 1) [] ⟨[], c :: rest⟩ rfl (by simp [defaultBufSize])
    (by simp only [List.length_nil, Nat.sub_zero, hgot]; simp)]
  simp only [List.length_nil, Nat.sub_zero, List.nil_append]
  rw [ReadStringLoop_found 58 m [] _ (pre ++ [58]) post
    (by simp only [hgot]; exact splitAfter_append 58 pre post hpre)]
  simp

theorem formatInt_ne_colon (n : Nat) : ∀ x ∈ formatInt n, x ≠ 58 := by
  intro x hx h
  have := (formatInt_isDecimalOf n).2.1 x hx
  rw [h] at this
  exact absurd this.2 (by decide)

theorem Atoi_formatInt (n : Nat) (h : n < 2 ^ 63) : Atoi (formatInt n) = some (n : Int) := by
  obtain ⟨h1, h2, _, _⟩ := formatInt_isDecimalOf n
  cases hf : formatInt n with
  | nil => exact absurd hf h1
  | cons a l =>
    have ha := h2 a (by rw [hf]; simp)
    have h45 : a ≠ 45 := by
      intro e; rw [e] at ha; exact absurd ha.1 (by decide)
    have h43 : a ≠ 43 := by
      intro e; rw [e] at ha; exact absurd ha.1 (by decide)
    have hp := parseDigits_formatInt n
    rw [hf] at hp
    have h' : n < 9223372036854775808 := by simpa using h
    simp [Atoi, h45, h43, hp, h']

theorem TrimSuffix_append (xs ys : List UInt8) : TrimSuffix (xs ++ ys) ys = xs := by
  simp [TrimSuffix]

theorem formatInt_length_le (k n : Nat) (h : n < 10 ^ (k + 1)) :
    (formatInt n).length ≤ k + 1 := by
  induction k generalizing n with
  | zero => rw [formatInt_small n (by simpa using h)]; simp
  | succ k ih =>
    by_cases h10 : n < 10
    · rw [formatInt_small n h10]; simp
    · rw [formatInt_step n (by omega)]
      have := ih (n / 10) (by rw [Nat.div_lt_iff_lt_mul (by decide)]; rw [pow_succ] at h; exact h)
      simp
      omega

theorem formatInt_length_maxAlloc (n : Nat) (h : n ≤ maxAlloc) : (formatInt n).length ≤ 15 :=
  formatInt_length_le 14 n (lt_of_le_of_lt h (by decide))

theorem readNetstring_after_length (reader r1 : Reader) (lengthStr : List UInt8) (n : Nat)
    (h : ReadString reader 58 = ((lengthStr, true), r1))
    (hA : Atoi (TrimSuffix lengthStr [58]) = some (n : Int)) (hn : n ≤ maxAlloc) :
    readNetstring reader =
      match Read r1 n with
      | (none, r2) => (.error .failedToReadData, r2)
      | (some got, r2) =>
        match ReadByte r2 with
        | (none, r3) => (.error .failedToReadComma, r3)
        | (some comma, r3) =>
          if comma ≠ 44 then (.error (.expectedComma comma), r3)
          else (.ok (got ++ List.replicate (n - got.length) 0), r3) := by
  have h1 : ¬ ((n : Int) < 0 ∨ (maxAlloc : Int) < (n : Int)) := by
    have : (n : Int) ≤ (maxAlloc : Int) := by exact_mod_cast hn
    omega
  simp only [readNetstring, h, hA, h1, if_false, Int.toNat_ofNat]

theorem ReadByte_fresh (x : UInt8) (c : List UInt8) (rest : List (List UInt8)) :
    ∃ r3, ReadByte ⟨[], (x :: c) :: rest⟩ = (some x, r3) := by
  have h : ∃ tl rd1, connRead ((x :: c) :: rest) defaultBufSize = (x :: tl, rd1) := by
    show ∃ tl rd1, connRead ((x :: c) :: rest) (4095 + 1) = (x :: tl, rd1)
    rw [connRead]
    split
    · exact ⟨_, _, rfl⟩
    · exact ⟨_, _, rfl⟩
  obtain ⟨tl, rd1, h⟩ := h
  exact ⟨⟨tl, rd1⟩, by simp only [ReadByte, h]⟩

theorem netstr_eq (p : List UInt8) :
    netstr p = formatInt p.length ++ 58 :: (p ++ [44]) := by
  simp [netstr]

theorem take_frame (p : List UInt8) (t : UInt8)
    (h : (formatInt p.length).length < defaultBufSize) :
    (formatInt p.length ++ 58 :: (p ++ [t])).take defaultBufSize =
      formatInt p.length ++
        58 :: (p ++ [t]).take (defaultBufSize - 1 - (formatInt p.length).length) := by
  have e : defaultBufSize - (formatInt p.length).length =
      (defaultBufSize - 1 - (formatInt p.length).length) + 1 := by omega
  rw [List.take_append_eq_append_take, List.take_of_length_le (by omega), e, List.take_succ_cons]

theorem drop_frame (p : List UInt8) (t : UInt8)
    (h : (formatInt p.length).length < defaultBufSize) :
    (formatInt p.length ++ 58 :: (p ++ [t])).drop defaultBufSize =
      (p ++ [t]).drop (defaultBufSize - 1 - (formatInt p.length).length) := by
  have e : defaultBufSize - (formatInt p.length).length =
      (defaultBufSize - 1 - (formatInt p.length).length) + 1 := by omega
  rw [List.drop_append_eq_append_drop, List.drop_of_length_le (by omega), e, List.drop_succ_cons]
  simp

theorem frame_length (p : List UInt8) (t : UInt8) :
    (formatInt p.length ++ 58 :: (p ++ [t])).length =
      (formatInt p.length).length + p.length + 2 := by
  simp; omega

/-- A frame with any byte `t` in the terminator position that fits the reader's buffer and
arrives in one read: the payload comes back when `t` is the comma, and the frame is
refused otherwise. -/
theorem readNetstring_frame_fits (p : List UInt8) (t : UInt8) (rest : List (List UInt8))
    (h : (formatInt p.length).length + p.length + 2 ≤ defaultBufSize) :
    (readNetstring (NewReader ((formatInt p.length ++ 58 :: (p ++ [t])) :: rest))).1 =
      if t ≠ 44 then .error (.expectedComma t) else .ok p := by
  have hd : (formatInt p.length).length < defaultBufSize := by omega
  have hk : p.length + 1 ≤ defaultBufSize - 1 - (formatInt p.length).length := by omega
  have hne : formatInt p.length ++ 58 :: (p ++ [t]) ≠ [] := by simp
  have hR := ReadString_fresh (formatInt p.length ++ 58 :: (p ++ [t])) (formatInt p.length)
    (p ++ [t]) rest
    (by rw [take_frame p t hd, List.take_of_length_le (by simp; omega)])
    (formatInt_ne_colon _)
  have hp : p.length ≤ maxAlloc := by
    have : defaultBufSize ≤ maxAlloc := by decide
    omega
  rw [NewReader, readNetstring_after_length _ _ _ p.length hR
    (by rw [TrimSuffix_append]; exact Atoi_formatInt _ (lt_of_le_of_lt hp (by decide))) hp]
  by_cases h0 : p.length = 0
  · have : p = [] := List.length_eq_zero.1 h0
    subst this
    by_cases ht : t = 44 <;> simp [Read, ReadByte, ht]
  · by_cases ht : t = 44 <;> simp [Read, ReadByte, h0, ht]

/-- A frame that fits the reader's buffer and arrives in one read decodes to its payload. -/
theorem readNetstring_netstr_fits (p : List UInt8) (rest : List (List UInt8))
    (h : (netstr p).length ≤ defaultBufSize) :
    (readNetstring (NewReader (netstr p :: rest))).1 = .ok p := by
  rw [netstr_eq] at h ⊢
  rw [frame_length] at h
  rw [readNetstring_frame_fits p 44 rest h]
  simp

/-- A frame longer than what the first read of the connection can put in the buffer: the
payload is `a ++ x :: tl`, where `a` is the part of it that the buffer still takes after
the length and the colon. `Read` hands over `a` alone, the rest of `data` stays zero, and
the byte `x` is taken for the terminator, whatever byte `t` stands in that position. -/
theorem readNetstring_frame_overlong (a tl : List UInt8) (x t : UInt8)
    (hp : (a ++ x :: tl).length ≤ maxAlloc) (ha0 : a ≠ [])
    (ha : a.length = defaultBufSize - 1 - (formatInt (a ++ x :: tl).length).length) :
    (readNetstring (NewReader
        [formatInt (a ++ x :: tl).length ++ 58 :: ((a ++ x :: tl) ++ [t])])).1 =
      if x ≠ 44 then .error (.expectedComma x)
      else .ok (a ++ List.replicate (1 + tl.length) 0) := by
  have hd15 := formatInt_length_maxAlloc _ hp
  have hd : (formatInt (a ++ x :: tl).length).length < defaultBufSize :=
    lt_of_le_of_lt hd15 (by decide)
  have hne : formatInt (a ++ x :: tl).length ++ 58 :: ((a ++ x :: tl) ++ [t]) ≠ [] := by simp
  have hlong : ¬ (formatInt (a ++ x :: tl).length ++ 58 :: ((a ++ x :: tl) ++ [t])).length
      ≤ defaultBufSize := by
    rw [frame_length]
    have : (a ++ x :: tl).length = a.length + 1 + tl.length := by simp; omega
    omega
  have hR := ReadString_fresh (formatInt (a ++ x :: tl).length ++ 58 :: ((a ++ x :: tl) ++ [t]))
    (formatInt (a ++ x :: tl).length) a []
    (by rw [take_frame _ t hd, ← ha, List.append_assoc, List.take_left']; rfl)
    (formatInt_ne_colon _)
  have hrest : (formatInt (a ++ x :: tl).length ++ 58 :: ((a ++ x :: tl) ++ [t])).drop
      defaultBufSize = x :: (tl ++ [t]) := by
    rw [drop_frame _ t hd, ← ha, List.append_assoc, List.drop_left]; rfl
  rw [connRead_cons_snd _ _ _ hne, if_neg hlong, hrest] at hR
  rw [NewReader, readNetstring_after_length _ _ _ _ hR
    (by rw [TrimSuffix_append]; exact Atoi_formatInt _ (lt_of_le_of_lt hp (by decide))) hp]
  have hn0 : (a ++ x :: tl).length ≠ 0 := by simp
  have htake : a.take (a ++ x :: tl).length = a := List.take_of_length_le (by simp)
  have hdrop : a.drop (a ++ x :: tl).length = [] := List.drop_of_length_le (by simp)
  have hsub : (a ++ x :: tl).length - a.length = 1 + tl.length := by simp; omega
  simp only [Read, hn0, ha0, if_false, htake, hdrop, hsub]
  obtain ⟨r3, hB⟩ := ReadByte_fresh x (tl ++ [t]) []
  rw [hB]
  by_cases hx : x = 44 <;> simp [hx]

theorem formatInt_4092 : formatInt 4092 = [52, 48, 57, 50] := by decide

theorem replicate_4092 (b : UInt8) :
    List.replicate 4092 b = List.replicate 4091 b ++ b :: [] := by
  rw [show (4092 : Nat) = 4091 + 1 from rfl, List.replicate_succ']

theorem readNetstring_4092 :
    (readNetstring (NewReader [netstr (List.replicate 4092 97)])).1 =
      .error (.expectedComma 97) := by
  rw [netstr_eq, replicate_4092]
  rw [readNetstring_frame_overlong (List.replicate 4091 97) [] 97 44
    (by rw [← replicate_4092, List.length_replicate]; decide)
    (by rw [show (4091 : Nat) = 4090 + 1 from rfl, List.replicate_succ]; exact List.cons_ne_nil _ _)
    (by rw [← replicate_4092, List.length_replicate, List.length_replicate, formatInt_4092]; rfl)]
  rfl

theorem readNetstring_4092_wrong_terminator :
    (readNetstring (NewReader
        [bytes "4092:" ++ (List.replicate 4091 97 ++ [44]) ++ [120]])).1 =
      .ok (List.replicate 4091 97 ++ [0]) := by
  have hlen : (List.replicate 4091 (97 : UInt8) ++ [44]).length = 4092 := by
    rw [List.length_append, List.length_replicate]; rfl
  have h := readNetstring_frame_overlong (List.replicate 4091 97) [] 44 120
    (by rw [hlen]; decide)
    (by rw [show (4091 : Nat) = 4090 + 1 from rfl, List.replicate_succ]; exact List.cons_ne_nil _ _)
    (by rw [hlen, List.length_replicate, formatInt_4092]; rfl)
  rw [hlen, formatInt_4092] at h
  have e : bytes "4092:" = [52, 48, 57, 50, 58] := by decide
  rw [e]
  simp only [List.cons_append, List.nil_append, List.append_assoc] at h ⊢
  rw [h]
  rfl

/-! ### Fuel -/

theorem connRead_pending (rd : List (List UInt8)) (cap : Nat) :
    pending (connRead rd cap).2 + (connRead rd cap).1.length = pending rd := by
  induction rd with
  | nil => simp [connRead, pending]
  | cons c rest ih =>
    cases c with
    | nil => rw [connRead, ih, pending_cons]; simp
    | cons b c =>
      rw [connRead]
      split
      · simp only [pending_cons]; omega
      · simp only [pending_cons, List.length_take, List.length_drop]
        omega

/-- The result of `ReadStringLoop` does not depend on the fuel once there is more of it
than bytes left on the connection, which is what `ReadString` supplies. -/
theorem ReadStringLoop_fuel (d : UInt8) (f1 f2 : Nat) (acc : List UInt8) (r : Reader)
    (h1 : pending r.rd < f1) (h2 : pending r.rd < f2) :
    ReadStringLoop d f1 acc r = ReadStringLoop d f2 acc r := by
  induction f1 generalizing f2 acc r with
  | zero => omega
  | succ f ih =>
    cases f2 with
    | zero => omega
    | succ g =>
      rw [ReadStringLoop, ReadStringLoop]
      split
      · rfl
      · by_cases hg : (connRead r.rd (defaultBufSize -
            (if defaultBufSize ≤ r.buf.length then [] else r.buf).length)).1 = []
        · simp only [hg, if_true]
        · simp only [hg, if_false]
          have hc := connRead_pending r.rd (defaultBufSize -
            (if defaultBufSize ≤ r.buf.length then [] else r.buf).length)
          have hpos := List.length_pos.2 hg
          exact ih g _ _ (by simp only; omega) (by simp only; omega)

theorem DecodeRune_width_pos (b : UInt8) (rest : List UInt8) :
    1 ≤ (DecodeRune (b :: rest)).2 := by
  unfold DecodeRune
  simp only
  split_ifs <;> first | exact Nat.le_refl 1 | (split <;> first | exact Nat.le_refl 1 | (split_ifs <;> simp))

/-- The result of `rangeString` does not depend on the fuel once it covers the byte length,
which is what `runes` supplies. -/
theorem rangeString_fuel (f1 f2 : Nat) (s : List UInt8)
    (h1 : s.length ≤ f1) (h2 : s.length ≤ f2) : rangeString f1 s = rangeString f2 s := by
  induction f1 generalizing f2 s with
  | zero =>
    have : s = [] := List.length_eq_zero.1 (by omega)
    subst this
    cases f2 <;> rfl
  | succ f ih =>
    cases s with
    | nil => cases f2 <;> rfl
    | cons b rest =>
      cases f2 with
      | zero => simp at h2
      | succ g =>
        rw [rangeString, rangeString]
        have hw := DecodeRune_width_pos b rest
        have hl : ((b :: rest).drop (DecodeRune (b :: rest)).2).length ≤ rest.length := by
          rw [List.length_drop]; simp; omega
        rw [ih g _ (by simp at h1; omega) (by simp at h2; omega)]

theorem writeNetstring_wr (p : List UInt8) :
    (writeNetstring ⟨[], [], true⟩ p).1.wr = netstr p := by
  simp [writeNetstring, Conn.Write]

/-! ### The codec: claims -/

/-- C1. The round trip is lost on a short read. The frame that `writeNetstring` produces
for a payload of 4092 bytes `a` is longer than the reader's buffer: delivered by the
connection in full, it is refused with `expected comma`. The frame for `hello`, arriving as
`5:he` and `llo,`, is refused in the same way. -/
theorem roundtrip_lost_on_short_read :
    (readNetstring (NewReader
        [(writeNetstring ⟨[], [], true⟩ (List.replicate 4092 97)).1.wr])).1 =
      .error (.expectedComma 97)
    ∧ (writeNetstring ⟨[], [], true⟩ (bytes "hello")).1.wr = bytes "5:he" ++ bytes "llo,"
    ∧ (readNetstring (NewReader [bytes "5:he", bytes "llo,"])).1 =
      .error (.expectedComma 108) := by
  refine ⟨?_, by decide, by decide⟩
  rw [writeNetstring_wr]
  exact readNetstring_4092

/-- C2. A truncated frame is accepted. The stream `3:a,` announces three payload bytes,
delivers two and ends; when it arrives as `3:a` and `,` the call returns the payload `a`
followed by two zero bytes, and no error. -/
theorem truncated_frame_accepted :
    readNetstring (NewReader [bytes "3:a", bytes ","]) = (.ok [97, 0, 0], ⟨[], []⟩) := by
  decide

/-- C3. A split frame yields a partly filled payload. The well-formed frame `3:a,b,`,
arriving as `3:a` and `,b,`, decodes to `a` followed by two zero bytes instead of `a,b`,
and the bytes `b,` are left in the reader. -/
theorem split_frame_partly_filled :
    netstr (bytes "a,b") = bytes "3:a" ++ bytes ",b,"
    ∧ readNetstring (NewReader [bytes "3:a", bytes ",b,"]) =
      (.ok [97, 0, 0], ⟨bytes "b,", []⟩) := by
  decide

/-- C4. A negative length aborts the call. On the stream `-5:hello,` the length text
parses to `-5` and `make([]byte, -5)` panics: no error result is returned. -/
theorem negative_length_panics :
    (readNetstring (NewReader [bytes "-5:hello,"])).1 = .panic := by
  decide

/-- C5. A wrong terminator goes unnoticed after a short read. The stream `2:a,x` has the
two-byte payload `a,` and the byte `x` where the comma belongs; arriving as `2:a` and
`,x` it decodes to `a` and a zero byte. The same happens without any split once the
frame is longer than the buffer: length 4092, payload of 4091 bytes `a` and a comma,
then `x`. -/
theorem wrong_terminator_accepted :
    (readNetstring (NewReader [bytes "2:a", bytes ",x"])).1 = .ok [97, 0]
    ∧ (readNetstring (NewReader
        [bytes "4092:" ++ (List.replicate 4091 97 ++ [44]) ++ [120]])).1 =
      .ok (List.replicate 4091 97 ++ [0]) :=
  ⟨by decide, readNetstring_4092_wrong_terminator⟩

/-- C6. Encoding format. On a connection that takes the write, `writeNetstring` appends
exactly the text of the payload's byte count, a colon, the payload unchanged and a comma;
that text is the decimal representation of the count; and the empty payload is written
as `0:,`. -/
theorem writeNetstring_format (rd : List (List UInt8)) (wr p : List UInt8) :
    writeNetstring ⟨rd, wr, true⟩ p =
        (⟨rd, wr ++ (formatInt p.length ++ [58] ++ p ++ [44]), true⟩, true)
    ∧ IsDecimalOf (formatInt p.length) p.length
    ∧ writeNetstring ⟨rd, wr, true⟩ [] = (⟨rd, wr ++ bytes "0:,", true⟩, true) := by
  refine ⟨?_, formatInt_isDecimalOf _, ?_⟩
  · simp [writeNetstring, Conn.Write, netstr]
  · have e : netstr [] = bytes "0:," := by decide
    simp [writeNetstring, Conn.Write, e]

/-! ### The dispatcher -/

theorem runes_cons_ascii (a : UInt8) (s : List UInt8) (h : a.toNat < 0x80) :
    runes (a :: s) = (a.toNat, [a]) :: runes s := by
  simp [runes, rangeString, DecodeRune, h]

theorem fieldsOf_word_space (t : List UInt8)
    (ht : ∀ a ∈ t, a.toNat < 0x80 ∧ IsSpace a.toNat = false) (cur k : List UInt8) :
    fieldsOf (runes (t ++ 32 :: k)) cur =
      if cur ++ t = [] then Fields k else (cur ++ t) :: Fields k := by
  induction t generalizing cur with
  | nil =>
    rw [List.nil_append, runes_cons_ascii 32 k (by decide), fieldsOf]
    have : IsSpace (32 : UInt8).toNat = true := by decide
    rw [if_pos this]
    simp [Fields]
  | cons a t ih =>
    have ha := ht a (by simp)
    rw [List.cons_append, runes_cons_ascii a _ ha.1, fieldsOf]
    simp only [ha.2, Bool.false_eq_true, if_false]
    rw [ih (fun b hb => ht b (by simp [hb]))]
    simp

/-- A request made of an ASCII table name, one space and a key that is a single field
splits into exactly the name and the key. -/
theorem Fields_name_key (t k : List UInt8) (ht0 : t ≠ [])
    (ht : ∀ a ∈ t, a.toNat < 0x80 ∧ IsSpace a.toNat = false) (hk : Fields k = [k]) :
    Fields (t ++ 32 :: k) = [t, k] := by
  rw [Fields, fieldsOf_word_space t ht [] k, hk]
  simp [ht0]

theorem State.init_cache (k : List UInt8) : State.init.cache k = none := rfl

/-- C7. Table routing on an empty cache, for a key `k` that is a single field: `user-exists`
answers `OK k` or `NOTFOUND` as `checkUserInTestDB` decides, `virtual-domains` answers the
bare `OK` or `NOTFOUND` as `checkDomainInTestDB` decides, and `virtual-aliases` answers
`OK d` with the destination `d` returned by `checkAliasInTestDB`, or `NOTFOUND` when that
is empty. -/
theorem processRequest_table_routing (k : List UInt8) (now : Nat) (hk : Fields k = [k]) :
    (processRequest State.init now (bytes "user-exists " ++ k)).1 =
        (if checkUserInTestDB k then bytes "OK " ++ k else bytes "NOTFOUND")
    ∧ (processRequest State.init now (bytes "virtual-domains " ++ k)).1 =
        (if checkDomainInTestDB k then bytes "OK" else bytes "NOTFOUND")
    ∧ (processRequest State.init now (bytes "virtual-aliases " ++ k)).1 =
        (if checkAliasInTestDB k = [] then bytes "NOTFOUND"
          else bytes "OK " ++ checkAliasInTestDB k) := by
  have e1 : bytes "user-exists " ++ k = bytes "user-exists" ++ 32 :: k := by
    rw [show bytes "user-exists " = bytes "user-exists" ++ [32] from by decide]; simp
  have e2 : bytes "virtual-domains " ++ k = bytes "virtual-domains" ++ 32 :: k := by
    rw [show bytes "virtual-domains " = bytes "virtual-domains" ++ [32] from by decide]; simp
  have e3 : bytes "virtual-aliases " ++ k = bytes "virtual-aliases" ++ 32 :: k := by
    rw [show bytes "virtual-aliases " = bytes "virtual-aliases" ++ [32] from by decide]; simp
  have f1 := Fields_name_key (bytes "user-exists") k (by decide) (by decide) hk
  have f2 := Fields_name_key (bytes "virtual-domains") k (by decide) (by decide) hk
  have f3 := Fields_name_key (bytes "virtual-aliases") k (by decide) (by decide) hk
  have n21 : bytes "virtual-domains" ≠ bytes "user-exists" := by decide
  have n31 : bytes "virtual-aliases" ≠ bytes "user-exists" := by decide
  have n32 : bytes "virtual-aliases" ≠ bytes "virtual-domains" := by decide
  refine ⟨?_, ?_, ?_⟩
  · rw [e1, processRequest, f1]
    simp only [if_true, handleUserExistsMap, userExists, State.init_cache]
    split <;> simp_all
  · rw [e2, processRequest, f2]
    simp only [n21, if_false, if_true, handleVirtualDomainsMap, domainExists, State.init_cache]
    split <;> simp_all
  · rw [e3, processRequest, f3]
    simp only [n31, n32, if_false, if_true, handleVirtualAliasesMap, resolveAlias]
    split <;> simp_all

/-- C7, at the three requests named by the claim and the keys in them. -/
theorem processRequest_table_routing_witness :
    (Fields (bytes "test@example.com") = [bytes "test@example.com"]
      ∧ (processRequest State.init 0 (bytes "user-exists " ++ bytes "test@example.com")).1 =
        bytes "OK test@example.com")
    ∧ (Fields (bytes "example.com") = [bytes "example.com"]
      ∧ (processRequest State.init 0 (bytes "virtual-domains " ++ bytes "example.com")).1 =
        bytes "OK")
    ∧ (Fields (bytes "postmaster@example.com") = [bytes "postmaster@example.com"]
      ∧ (processRequest State.init 0
          (bytes "virtual-aliases " ++ bytes "postmaster@example.com")).1 =
        bytes "OK admin@example.com") :=
  ⟨⟨by decide, by
      rw [(processRequest_table_routing (bytes "test@example.com") 0 (by decide)).1]
      decide⟩,
    ⟨by decide, by
      rw [(processRequest_table_routing (bytes "example.com") 0 (by decide)).2.1]
      decide⟩,
    ⟨by decide, by
      rw [(processRequest_table_routing (bytes "postmaster@example.com") 0 (by decide)).2.2]
      decide⟩⟩

/-- C8. An entry written by `user-exists` answers a `virtual-domains` lookup. On the empty
cache `virtual-domains example.com` is answered `OK`; after the request
`user-exists domain:example.com`, which stores a negative entry under the very key that
`domainExists` reads, the same request one second later is answered `NOTFOUND`. -/
theorem user_entry_answers_domain_lookup :
    (processRequest State.init Second (bytes "virtual-domains example.com")).1 = bytes "OK"
    ∧ (processRequest
        (processRequest State.init 0 (bytes "user-exists domain:example.com")).2
        Second (bytes "virtual-domains example.com")).1 = bytes "NOTFOUND" := by
  decide

/-- C9. The `user-exists` entry lives 60 seconds. A lookup that finds no live entry for `k`
at time `T` stores the directory's answer with expiry `T + 60s`. While the cache holds for
`k` an entry with that expiry, a lookup before `T + 60s` returns the stored flag and leaves
cache and query log as they are; a lookup at or after `T + 60s` returns the directory's
answer, logs one more query, and stores the answer with expiry 60 seconds after the
lookup. -/
theorem userExists_ttl (st : State) (k : List UInt8) (e : Bool) (T now : Nat)
    (h : st.cache k = some ⟨e, T + 60 * Second⟩) :
    (∀ st0 : State, (∀ e0, st0.cache k = some e0 → e0.expires ≤ T) →
        (userExists st0 T k).2.cache k = some ⟨checkUserInTestDB k, T + 60 * Second⟩)
    ∧ (now < T + 60 * Second → userExists st now k = (e, st))
    ∧ (T + 60 * Second ≤ now →
        userExists st now k =
          (checkUserInTestDB k,
            ⟨st.cache.set k ⟨checkUserInTestDB k, now + 60 * Second⟩,
              st.queries ++ [.user k]⟩)) := by
  refine ⟨?_, ?_, ?_⟩
  · intro st0 h0
    unfold userExists
    split
    · rename_i entry he
      have := h0 entry he
      rw [if_neg (by omega)]
      simp [Cache.set]
    · simp [Cache.set]
  · intro hlt
    simp only [userExists, h, if_pos hlt]
  · intro hge
    have : ¬ now < T + 60 * Second := by omega
    simp only [userExists, h, if_neg this]

/-- C9, on the entry for `a@test.com` written at time 0: read at 59 seconds, expired
at 60. -/
theorem userExists_ttl_witness :
    (Cache.set (fun _ => none) (bytes "a@test.com") ⟨true, 0 + 60 * Second⟩) (bytes "a@test.com")
        = some ⟨true, 0 + 60 * Second⟩
    ∧ (userExists ⟨Cache.set (fun _ => none) (bytes "a@test.com") ⟨true, 0 + 60 * Second⟩,
          [.user (bytes "a@test.com")]⟩ (59 * Second) (bytes "a@test.com")).2.queries =
        [.user (bytes "a@test.com")]
    ∧ (userExists ⟨Cache.set (fun _ => none) (bytes "a@test.com") ⟨true, 0 + 60 * Second⟩,
          [.user (bytes "a@test.com")]⟩ (60 * Second) (bytes "a@test.com")).2.queries =
        [.user (bytes "a@test.com"), .user (bytes "a@test.com")] :=
  ⟨by simp [Cache.set], by
      rw [(userExists_ttl ⟨Cache.set (fun _ => none) (bytes "a@test.com") ⟨true, 0 + 60 * Second⟩,
        [.user (bytes "a@test.com")]⟩ (bytes "a@test.com") true 0 (59 * Second)
        (by simp [Cache.set])).2.1 (by decide)], by
      rw [(userExists_ttl ⟨Cache.set (fun _ => none) (bytes "a@test.com") ⟨true, 0 + 60 * Second⟩,
        [.user (bytes "a@test.com")]⟩ (bytes "a@test.com") true 0 (60 * Second)
        (by simp [Cache.set])).2.2 (by decide)]
      rfl⟩

/-- C10. A live `virtual-aliases` entry is not used. The lookup of `postmaster@example.com`
at time 0 stores an entry that expires after 300 seconds; the same lookup one second later
queries `checkAliasInTestDB` again, so the log holds two queries. -/
theorem resolveAlias_ignores_live_entry :
    (resolveAlias State.init 0 (bytes "postmaster@example.com")).2.cache
        (bytes "alias:" ++ bytes "postmaster@example.com") = some ⟨true, 300 * Second⟩
    ∧ (resolveAlias (resolveAlias State.init 0 (bytes "postmaster@example.com")).2 Second
        (bytes "postmaster@example.com")).2.queries =
      [.alias (bytes "postmaster@example.com"), .alias (bytes "postmaster@example.com")] := by
  decide

/-! ### The dispatcher: malformed and unknown requests -/

/-- C11. Wrong token count. A request whose split on white space does not give exactly two
fields is answered `PERM invalid request format`, whatever the cache holds, and the cache
and the query log stay as they are. -/
theorem processRequest_wrong_token_count (st : State) (now : Nat) (line : List UInt8)
    (h : (Fields line).length ≠ 2) :
    processRequest st now line = (bytes "PERM invalid request format", st) := by
  unfold processRequest
  split
  · rename_i mapname key hf
    rw [hf] at h
    exact absurd rfl h
  · rfl

/-- C11, at requests of zero, one and three fields, on a cache that holds an entry. -/
theorem processRequest_wrong_token_count_witness :
    ((Fields (bytes "   ")).length ≠ 2
      ∧ processRequest (processRequest State.init 0 (bytes "user-exists a@test.com")).2 1
          (bytes "   ") =
        (bytes "PERM invalid request format",
          (processRequest State.init 0 (bytes "user-exists a@test.com")).2))
    ∧ ((Fields (bytes "onlyonetoken")).length ≠ 2
      ∧ processRequest State.init 0 (bytes "onlyonetoken") =
        (bytes "PERM invalid request format", State.init))
    ∧ ((Fields (bytes "get user-exists a@test.com")).length ≠ 2
      ∧ processRequest State.init 0 (bytes "get user-exists a@test.com") =
        (bytes "PERM invalid request format", State.init)) :=
  ⟨⟨by decide, processRequest_wrong_token_count _ 1 (bytes "   ") (by decide)⟩,
    ⟨by decide, processRequest_wrong_token_count _ 0 (bytes "onlyonetoken") (by decide)⟩,
    ⟨by decide,
      processRequest_wrong_token_count _ 0 (bytes "get user-exists a@test.com") (by decide)⟩⟩

/-- C12. Unknown table. A request of two fields whose first field is none of `user-exists`,
`virtual-domains`, `virtual-aliases`, compared byte for byte, is answered `NOTFOUND`, and
the cache and the query log stay as they are. -/
theorem processRequest_unknown_table (st : State) (now : Nat) (line mapname key : List UInt8)
    (hf : Fields line = [mapname, key])
    (h1 : mapname ≠ bytes "user-exists") (h2 : mapname ≠ bytes "virtual-domains")
    (h3 : mapname ≠ bytes "virtual-aliases") :
    processRequest st now line = (bytes "NOTFOUND", st) := by
  rw [processRequest, hf]
  simp only [h1, h2, h3, if_false]

/-- C12, at an unknown table name and at a known name in another letter case. -/
theorem processRequest_unknown_table_witness :
    (Fields (bytes "unknown-table anything") = [bytes "unknown-table", bytes "anything"]
      ∧ processRequest State.init 0 (bytes "unknown-table anything") =
        (bytes "NOTFOUND", State.init))
    ∧ (Fields (bytes "User-Exists test@example.com") =
        [bytes "User-Exists", bytes "test@example.com"]
      ∧ processRequest State.init 0 (bytes "User-Exists test@example.com") =
        (bytes "NOTFOUND", State.init)) :=
  ⟨⟨by decide,
      processRequest_unknown_table _ 0 _ (bytes "unknown-table") (bytes "anything")
        (by decide) (by decide) (by decide) (by decide)⟩,
    ⟨by decide,
      processRequest_unknown_table _ 0 _ (bytes "User-Exists") (bytes "test@example.com")
        (by decide) (by decide) (by decide) (by decide)⟩⟩

/-! ### The connection handler: rounds and fuel -/

theorem handleLoop_round_error (clock : Nat → Nat) (fuel i : Nat) (reader r1 : Reader)
    (conn : Conn) (st : State) (e : NetstringError)
    (h : readNetstring reader = (.error e, r1)) :
    handleLoop clock (fuel + 1) i reader conn st = ⟨conn, r1, st, .readError e, true⟩ := by
  rw [handleLoop, h]

theorem handleLoop_round_empty (clock : Nat → Nat) (fuel i : Nat) (reader r1 : Reader)
    (conn : Conn) (st : State) (h : readNetstring reader = (.ok [], r1)) :
    handleLoop clock (fuel + 1) i reader conn st = handleLoop clock fuel (i + 1) r1 conn st := by
  rw [handleLoop, h]
  simp

theorem handleLoop_round_request (clock : Nat → Nat) (fuel i : Nat) (reader r1 : Reader)
    (conn : Conn) (st : State) (request : List UInt8)
    (h : readNetstring reader = (.ok request, r1)) (hne : request ≠ [])
    (hw : conn.writable = true) :
    handleLoop clock (fuel + 1) i reader conn st =
      handleLoop clock fuel (i + 1) r1
        ⟨conn.rd, conn.wr ++ netstr (processRequest st (clock i) request).1, true⟩
        (processRequest st (clock i) request).2 := by
  rw [handleLoop, h]
  simp only [hne, if_false, writeNetstring, Conn.Write, hw, if_true]

theorem splitAfter_eq (d : UInt8) (buf pre post : List UInt8)
    (h : splitAfter d buf = some (pre, post)) : buf = pre ++ post ∧ pre ≠ [] := by
  induction buf generalizing pre with
  | nil => simp [splitAfter] at h
  | cons b rest ih =>
    rw [splitAfter] at h
    split at h
    · simp only [Option.some.injEq, Prod.mk.injEq] at h
      obtain ⟨h1, h2⟩ := h
      subst h1 h2
      simp
    · split at h
      · rename_i p q hs
        simp only [Option.some.injEq, Prod.mk.injEq] at h
        obtain ⟨h1, h2⟩ := h
        subst h1 h2
        have := ih p hs
        exact ⟨by rw [this.1]; simp, by simp⟩
      · simp at h

theorem ReadStringLoop_consumes (d : UInt8) (fuel : Nat) (acc : List UInt8) (r r1 : Reader)
    (s : List UInt8) (h : ReadStringLoop d fuel acc r = ((s, true), r1)) :
    r1.buf.length + pending r1.rd + s.length = acc.length + (r.buf.length + pending r.rd)
      ∧ acc.length < s.length := by
  induction fuel generalizing acc r with
  | zero => simp [ReadStringLoop] at h
  | succ f ih =>
    rw [ReadStringLoop] at h
    cases hs : splitAfter d r.buf with
    | some pp =>
      obtain ⟨pre, post⟩ := pp
      simp only [hs, Prod.mk.injEq, and_true] at h
      obtain ⟨h1, h2⟩ := h
      subst h1 h2
      obtain ⟨hb, hp⟩ := splitAfter_eq d _ _ _ hs
      have hl := List.length_pos.2 hp
      have hb' := congrArg List.length hb
      simp only [List.length_append] at hb' ⊢
      omega
    | none =>
      simp only [hs] at h
      by_cases hfull : defaultBufSize ≤ r.buf.length
      · simp only [hfull, if_true, List.length_nil, Nat.sub_zero, List.nil_append,
          List.append_nil] at h
        have hc := connRead_pending r.rd defaultBufSize
        by_cases hg : (connRead r.rd defaultBufSize).1 = []
        · simp [hg] at h
        · simp only [hg, if_false] at h
          have := ih _ _ h
          simp only [List.length_append] at this
          omega
      · simp only [hfull, if_false] at h
        have hc := connRead_pending r.rd (defaultBufSize - r.buf.length)
        by_cases hg : (connRead r.rd (defaultBufSize - r.buf.length)).1 = []
        · simp [hg] at h
        · simp only [hg, if_false] at h
          have := ih _ _ h
          simp only [List.length_append] at this
          omega

theorem Read_total (r r2 : Reader) (n : Nat) (got : Option (List UInt8))
    (h : Read r n = (got, r2)) :
    r2.buf.length + pending r2.rd ≤ r.buf.length + pending r.rd := by
  unfold Read at h
  by_cases h0 : n = 0
  · simp only [h0, if_true, Prod.mk.injEq] at h
    rw [← h.2]
  · by_cases hb : r.buf = []
    · by_cases hn : defaultBufSize ≤ n
      · have hc := connRead_pending r.rd n
        simp only [h0, hb, hn, if_true, if_false] at h
        by_cases hg : (connRead r.rd n).1 = []
        · simp only [hg, if_true, Prod.mk.injEq] at h
          rw [← h.2]; simp only [List.length_nil]; omega
        · simp only [hg, if_false, Prod.mk.injEq] at h
          rw [← h.2]; simp only [List.length_nil]; omega
      · have hc := connRead_pending r.rd defaultBufSize
        simp only [h0, hb, hn, if_true, if_false] at h
        by_cases hg : (connRead r.rd defaultBufSize).1 = []
        · simp only [hg, if_true, Prod.mk.injEq] at h
          rw [← h.2]; simp only [List.length_nil]; omega
        · simp only [hg, if_false, Prod.mk.injEq] at h
          rw [← h.2]; simp only [List.length_drop]; omega
    · simp only [h0, hb, if_false, Prod.mk.injEq] at h
      rw [← h.2]
      simp only [List.length_drop]; omega

theorem ReadByte_total (r r3 : Reader) (b : Option UInt8) (h : ReadByte r = (b, r3)) :
    r3.buf.length + pending r3.rd ≤ r.buf.length + pending r.rd := by
  unfold ReadByte at h
  split at h
  · rename_i x rest hb
    simp only [Prod.mk.injEq] at h
    rw [← h.2, hb]
    simp
  · rename_i hb
    have hc := connRead_pending r.rd defaultBufSize
    split at h
    · rename_i x rest rd1 hr
      simp only [Prod.mk.injEq] at h
      rw [← h.2]
      rw [hr] at hc
      simp only [List.length_cons] at hc ⊢
      omega
    · rename_i rd1 hr
      simp only [Prod.mk.injEq] at h
      rw [← h.2]
      rw [hr] at hc
      simp only [List.length_nil] at hc ⊢
      omega

/-- A call of `readNetstring` that returns a payload has consumed at least one byte. -/
theorem readNetstring_consumes (r r1 : Reader) (p : List UInt8)
    (h : readNetstring r = (.ok p, r1)) :
    r1.buf.length + pending r1.rd < r.buf.length + pending r.rd := by
  unfold readNetstring at h
  split at h
  · simp at h
  · rename_i lengthStr ra hs
    have h1 := ReadStringLoop_consumes 58 _ [] r ra lengthStr hs
    simp only [List.length_nil, Nat.zero_add] at h1
    split at h
    · simp at h
    · split at h
      · simp at h
      · split at h
        · simp at h
        · rename_i got rb hr
          have h2 := Read_total _ _ _ _ hr
          split at h
          · simp at h
          · rename_i comma rc hb
            have h3 := ReadByte_total _ _ _ hb
            split at h
            · simp at h
            · simp only [Prod.mk.injEq] at h
              rw [← h.2]
              omega

/-- The result of `handleLoop` does not depend on the fuel once there is more of it than
bytes the reader can still hand out, which is what `handleConnection` supplies: a run
never ends for want of fuel. -/
theorem handleLoop_fuel (clock : Nat → Nat) (f1 f2 i : Nat) (reader : Reader) (conn : Conn)
    (st : State) (h1 : reader.buf.length + pending reader.rd < f1)
    (h2 : reader.buf.length + pending reader.rd < f2) :
    handleLoop clock f1 i reader conn st = handleLoop clock f2 i reader conn st := by
  induction f1 generalizing f2 i reader conn st with
  | zero => omega
  | succ f ih =>
    cases f2 with
    | zero => omega
    | succ g =>
      rw [handleLoop, handleLoop]
      split
      · rfl
      · rfl
      · rename_i request r1 hr
        have hc := readNetstring_consumes _ _ _ hr
        split
        · exact ih g _ _ _ _ (by omega) (by omega)
        · simp only
          split
          · rfl
          · exact ih g _ _ _ _ (by omega) (by omega)

/-! ### The connection handler: claims -/

theorem processRequest_user (st : State) (now : Nat) (line key : List UInt8)
    (hf : Fields line = [bytes "user-exists", key]) :
    processRequest st now line = handleUserExistsMap st now key := by
  rw [processRequest, hf]
  simp

theorem processRequest_domain (st : State) (now : Nat) (line key : List UInt8)
    (hf : Fields line = [bytes "virtual-domains", key]) :
    processRequest st now line = handleVirtualDomainsMap st now key := by
  have n21 : bytes "virtual-domains" ≠ bytes "user-exists" := by decide
  rw [processRequest, hf]
  simp only [n21, if_false, if_true]

theorem processRequest_alias (st : State) (now : Nat) (line key : List UInt8)
    (hf : Fields line = [bytes "virtual-aliases", key]) :
    processRequest st now line = handleVirtualAliasesMap st now key := by
  have n31 : bytes "virtual-aliases" ≠ bytes "user-exists" := by decide
  have n32 : bytes "virtual-aliases" ≠ bytes "virtual-domains" := by decide
  rw [processRequest, hf]
  simp only [n31, n32, if_false, if_true]

theorem handleUserExistsMap_init (now : Nat) (key : List UInt8)
    (h : checkUserInTestDB key = true) :
    (handleUserExistsMap State.init now key).1 = bytes "OK " ++ key := by
  simp [handleUserExistsMap, userExists, State.init_cache, h]

/-- A frame with any byte `t` in the terminator position that fits the reader's buffer and
arrives in one read, with the reader it leaves: the buffer is empty again and the
connection stands at the next chunk. -/
theorem readNetstring_frame_whole (p : List UInt8) (t : UInt8) (rest : List (List UInt8))
    (h : (formatInt p.length).length + p.length + 2 ≤ defaultBufSize) :
    readNetstring (NewReader ((formatInt p.length ++ 58 :: (p ++ [t])) :: rest)) =
      (if t ≠ 44 then .error (.expectedComma t) else .ok p, ⟨[], rest⟩) := by
  have hd : (formatInt p.length).length < defaultBufSize := by omega
  have hne : formatInt p.length ++ 58 :: (p ++ [t]) ≠ [] := by simp
  have hR := ReadString_fresh (formatInt p.length ++ 58 :: (p ++ [t])) (formatInt p.length)
    (p ++ [t]) rest
    (by rw [take_frame p t hd, List.take_of_length_le (by simp; omega)])
    (formatInt_ne_colon _)
  rw [connRead_cons_snd _ _ _ hne, if_pos (by rw [frame_length]; omega)] at hR
  have hp : p.length ≤ maxAlloc := by
    have : defaultBufSize ≤ maxAlloc := by decide
    omega
  rw [NewReader, readNetstring_after_length _ _ _ p.length hR
    (by rw [TrimSuffix_append]; exact Atoi_formatInt _ (lt_of_le_of_lt hp (by decide))) hp]
  by_cases h0 : p.length = 0
  · have : p = [] := List.length_eq_zero.1 h0
    subst this
    by_cases ht : t = 44 <;> simp [Read, ReadByte, ht]
  · by_cases ht : t = 44 <;> simp [Read, ReadByte, h0, ht]

/-! ### Frames that arrive whole -/

theorem readNetstring_after_colon (r : Reader) (p more : List UInt8) (rd : List (List UInt8))
    (hp : p.length ≤ maxAlloc)
    (h : ReadString r 58 = ((formatInt p.length ++ [58], true), ⟨p ++ 44 :: more, rd⟩)) :
    readNetstring r = (.ok p, ⟨more, rd⟩) := by
  rw [readNetstring_after_length _ _ _ p.length h
    (by rw [TrimSuffix_append]; exact Atoi_formatInt _ (lt_of_le_of_lt hp (by decide))) hp]
  by_cases h0 : p.length = 0
  · have : p = [] := List.length_eq_zero.1 h0
    subst this
    simp [Read, ReadByte]
  · simp [Read, ReadByte, h0]

/-- A frame that arrives whole is decoded to its payload, and the reader is left with
exactly what follows the frame. -/
theorem readNetstring_arrives_whole (r r1 : Reader) (p : List UInt8)
    (h : ArrivesWhole r p r1) : readNetstring r = (.ok p, r1) := by
  obtain ⟨hlen, hcase⟩ := h
  have hp : p.length ≤ maxAlloc := by
    rw [netstr_eq, frame_length] at hlen
    have : defaultBufSize ≤ maxAlloc := by decide
    omega
  rcases hcase with ⟨hbuf, hrd⟩ | ⟨hbuf, hrd, hfit⟩
  · have hs : splitAfter 58 r.buf = some (formatInt p.length ++ [58], p ++ 44 :: r1.buf) := by
      rw [hbuf, netstr_eq, List.append_assoc]
      simpa using splitAfter_append 58 (formatInt p.length) (p ++ 44 :: r1.buf)
        (formatInt_ne_colon _)
    have hR : ReadString r 58 =
        ((formatInt p.length ++ [58], true), ⟨p ++ 44 :: r1.buf, r.rd⟩) := by
      rw [ReadString, ReadStringLoop_found 58 _ [] r _ _ hs]
      simp
    rw [readNetstring_after_colon r p r1.buf r.rd hp hR, ← hrd]
  · have hne : netstr p ++ r1.buf ≠ [] := by simp [netstr]
    have hR := ReadString_fresh (netstr p ++ r1.buf) (formatInt p.length)
      (p ++ 44 :: r1.buf) r1.rd
      (by rw [List.take_of_length_le hfit, netstr_eq]; simp)
      (formatInt_ne_colon _)
    rw [connRead_cons_snd _ _ _ hne, if_pos hfit] at hR
    have hr : r = ⟨[], (netstr p ++ r1.buf) :: r1.rd⟩ := by
      cases r
      simp only at hbuf hrd
      rw [hbuf, hrd]
    rw [hr, readNetstring_after_colon _ p r1.buf r1.rd hp hR]

/-! ### The entry of a user key, whatever was served before -/

theorem Cache.set_other (c : Cache) (key k : List UInt8) (entry : cacheEntry) (h : k ≠ key) :
    c.set key entry k = c k := by
  simp [Cache.set, h]

theorem userExists_keeps_entry (st : State) (now : Nat) (email k : List UInt8)
    (hI : ∀ e, st.cache k = some e → e.exists = checkUserInTestDB k) :
    ∀ e, (userExists st now email).2.cache k = some e → e.exists = checkUserInTestDB k := by
  have hset : ∀ e, (st.cache.set email ⟨checkUserInTestDB email, now + 60 * Second⟩) k = some e →
      e.exists = checkUserInTestDB k := by
    intro e he
    simp only [Cache.set] at he
    split at he
    · rename_i hk
      simp only [Option.some.injEq] at he
      rw [← he, hk]
    · exact hI e he
  unfold userExists
  split
  · split
    · exact hI
    · exact hset
  · exact hset

theorem domainExists_keeps_entry (st : State) (now : Nat) (domain k : List UInt8)
    (hk : k ≠ bytes "domain:" ++ domain) (e : cacheEntry)
    (h : (domainExists st now domain).2.cache k = some e) : st.cache k = some e := by
  unfold domainExists at h
  simp only at h
  split at h
  · split at h
    · exact h
    · simp only at h
      rwa [Cache.set_other _ _ _ _ hk] at h
  · simp only at h
    rwa [Cache.set_other _ _ _ _ hk] at h

theorem resolveAlias_keeps_entry (st : State) (now : Nat) (address k : List UInt8)
    (hk : k ≠ bytes "alias:" ++ address) (e : cacheEntry)
    (h : (resolveAlias st now address).2.cache k = some e) : st.cache k = some e := by
  unfold resolveAlias at h
  simp only at h
  rw [Cache.set_other _ _ _ _ hk] at h
  split at h
  · split at h <;> exact h
  · exact h

/-- A cache entry under a key that carries neither the `domain:` nor the `alias:` mark
holds the answer of the user directory for that key, and no request changes that. -/
theorem processRequest_keeps_user_entry (st : State) (now : Nat) (line k : List UInt8)
    (hk1 : ∀ d, k ≠ bytes "domain:" ++ d) (hk2 : ∀ a, k ≠ bytes "alias:" ++ a)
    (hI : ∀ e, st.cache k = some e → e.exists = checkUserInTestDB k) :
    ∀ e, (processRequest st now line).2.cache k = some e →
      e.exists = checkUserInTestDB k := by
  unfold processRequest
  split
  · rename_i mapname key hf
    split
    · unfold handleUserExistsMap
      simp only
      split <;> exact userExists_keeps_entry st now key k hI
    · split
      · unfold handleVirtualDomainsMap
        simp only
        split <;>
          exact fun e he => hI e (domainExists_keeps_entry st now key k (hk1 key) e he)
      · split
        · unfold handleVirtualAliasesMap
          simp only
          split <;>
            exact fun e he => hI e (resolveAlias_keeps_entry st now key k (hk2 key) e he)
        · exact hI
  · exact hI

theorem serve_keeps_user_entry (reqs : List (Nat × List UInt8)) (st : State) (k : List UInt8)
    (hk1 : ∀ d, k ≠ bytes "domain:" ++ d) (hk2 : ∀ a, k ≠ bytes "alias:" ++ a)
    (hI : ∀ e, st.cache k = some e → e.exists = checkUserInTestDB k) :
    ∀ e, (serve st reqs).2.cache k = some e → e.exists = checkUserInTestDB k := by
  induction reqs generalizing st with
  | nil => exact hI
  | cons q rest ih =>
    obtain ⟨now, line⟩ := q
    simp only [serve]
    exact ih _ (processRequest_keeps_user_entry st now line k hk1 hk2 hI)

theorem handleUserExistsMap_key (st : State) (now : Nat) (key : List UInt8)
    (hI : ∀ e, st.cache key = some e → e.exists = checkUserInTestDB key) :
    (handleUserExistsMap st now key).1 =
      (if checkUserInTestDB key then bytes "OK " ++ key else bytes "NOTFOUND") := by
  unfold handleUserExistsMap userExists
  cases hc : st.cache key with
  | none => simp only; split <;> simp_all
  | some entry =>
    have he := hI entry hc
    by_cases hlive : now < entry.expires
    · simp only [hlive, if_true, he]; split <;> simp_all
    · simp only [hlive, if_false]; split <;> simp_all

theorem admin_key_unmarked :
    (∀ d, bytes "admin@example.com" ≠ bytes "domain:" ++ d)
    ∧ (∀ a, bytes "admin@example.com" ≠ bytes "alias:" ++ a) := by
  have e0 : bytes "admin@example.com" = 97 :: 100 :: bytes "min@example.com" := by decide
  have e1 : bytes "domain:" = 100 :: bytes "omain:" := by decide
  have e2 : bytes "alias:" = 97 :: 108 :: bytes "ias:" := by decide
  refine ⟨?_, ?_⟩
  · intro d h
    rw [e0, e1, List.cons_append] at h
    exact absurd (List.cons.inj h).1 (by decide)
  · intro a h
    rw [e0, e2, List.cons_append, List.cons_append] at h
    exact absurd (List.cons.inj (List.cons.inj h).2).1 (by decide)

/-- Whatever requests were served since start-up, the request
`user-exists admin@example.com` is answered `OK admin@example.com`. -/
theorem processRequest_admin (reqs : List (Nat × List UInt8)) (now : Nat) :
    (processRequest (serve State.init reqs).2 now (bytes "user-exists admin@example.com")).1 =
      bytes "OK admin@example.com" := by
  have hu : checkUserInTestDB (bytes "admin@example.com") = true := by decide
  have hI := serve_keeps_user_entry reqs State.init (bytes "admin@example.com")
    admin_key_unmarked.1 admin_key_unmarked.2 (by intro e he; simp [State.init_cache] at he)
  rw [processRequest_user _ _ _ (bytes "admin@example.com") (by decide),
    handleUserExistsMap_key _ _ _ hI, hu]
  decide

/-- C13, as the claim words it. With a directory that knows the address, the frame that
the handler writes back for the request `user-exists admin@example.com` is not
`7:OK admin@example.com,`: the response has 20 bytes, not 7. Nothing at all is written
back when the connection refuses the write, or when the frame arrives in two reads,
`29:user-` and `exists admin@example.com,`. -/
theorem end_to_end_length_is_not_7 :
    checkUserInTestDB (bytes "admin@example.com") = true
    ∧ (handleConnection (fun _ => 0)
        ⟨[netstr (bytes "user-exists admin@example.com")], [], true⟩ State.init).conn.wr ≠
      bytes "7:OK admin@example.com,"
    ∧ (handleConnection (fun _ => 0)
        ⟨[netstr (bytes "user-exists admin@example.com")], [], false⟩ State.init).conn.wr = []
    ∧ netstr (bytes "user-exists admin@example.com") =
        bytes "29:user-" ++ bytes "exists admin@example.com,"
    ∧ (handleConnection (fun _ => 0)
        ⟨[bytes "29:user-", bytes "exists admin@example.com,"], [], true⟩ State.init).conn.wr =
      [] := by
  decide

/-- C13, amended. The directory knows `admin@example.com`. Whatever requests were served
since start-up and whatever the clock reads, in a round in which the frame of the request
`user-exists admin@example.com` arrives whole, on a connection that takes the write, the
handler writes exactly `20:OK admin@example.com,` and goes on with the next round. On a
connection that delivers just this frame in one read and then ends, these are all the
bytes written, and the handler returns at the end of the stream with the connection
closed. -/
theorem end_to_end_user_exists (clock : Nat → Nat) (reqs : List (Nat × List UInt8))
    (fuel i : Nat) (reader r1 : Reader) (conn : Conn)
    (harr : ArrivesWhole reader (bytes "user-exists admin@example.com") r1)
    (hw : conn.writable = true) :
    checkUserInTestDB (bytes "admin@example.com") = true
    ∧ handleLoop clock (fuel + 1) i reader conn (serve State.init reqs).2 =
        handleLoop clock fuel (i + 1) r1
          ⟨conn.rd, conn.wr ++ bytes "20:OK admin@example.com,", true⟩
          (processRequest (serve State.init reqs).2 (clock i)
            (bytes "user-exists admin@example.com")).2
    ∧ (handleConnection clock
        ⟨[netstr (bytes "user-exists admin@example.com")], [], true⟩
        (serve State.init reqs).2).conn.wr = bytes "20:OK admin@example.com,"
    ∧ (handleConnection clock
        ⟨[netstr (bytes "user-exists admin@example.com")], [], true⟩
        (serve State.init reqs).2).exit = .readError .failedToReadLength
    ∧ (handleConnection clock
        ⟨[netstr (bytes "user-exists admin@example.com")], [], true⟩
        (serve State.init reqs).2).closed = true := by
  have hu : checkUserInTestDB (bytes "admin@example.com") = true := by decide
  have hframe : netstr (bytes "OK admin@example.com") = bytes "20:OK admin@example.com," := by
    decide
  have hround : ∀ (fuel i : Nat) (reader r1 : Reader) (conn : Conn),
      ArrivesWhole reader (bytes "user-exists admin@example.com") r1 →
      conn.writable = true →
      handleLoop clock (fuel + 1) i reader conn (serve State.init reqs).2 =
        handleLoop clock fuel (i + 1) r1
          ⟨conn.rd, conn.wr ++ bytes "20:OK admin@example.com,", true⟩
          (processRequest (serve State.init reqs).2 (clock i)
            (bytes "user-exists admin@example.com")).2 := by
    intro fuel i reader r1 conn harr hw
    rw [handleLoop_round_request clock fuel i reader r1 conn _ _
      (readNetstring_arrives_whole _ _ _ harr) (by decide) hw,
      processRequest_admin reqs (clock i), hframe]
  have hp : pending [netstr (bytes "user-exists admin@example.com")] + 1 = 32 + 1 + 1 := by
    decide
  have hend : readNetstring ⟨[], []⟩ = (.error .failedToReadLength, ⟨[], []⟩) := by decide
  have hrun : handleConnection clock
      ⟨[netstr (bytes "user-exists admin@example.com")], [], true⟩ (serve State.init reqs).2 =
      ⟨⟨[netstr (bytes "user-exists admin@example.com")],
          [] ++ bytes "20:OK admin@example.com,", true⟩, ⟨[], []⟩,
        (processRequest (serve State.init reqs).2 (clock 0)
          (bytes "user-exists admin@example.com")).2,
        .readError .failedToReadLength, true⟩ := by
    rw [handleConnection, hp,
      hround _ 0 (NewReader [netstr (bytes "user-exists admin@example.com")]) ⟨[], []⟩ _
        ⟨by decide, Or.inr ⟨rfl, by simp [NewReader], by decide⟩⟩ rfl,
      handleLoop_round_error clock _ _ _ _ _ _ _ hend]
  rw [hrun]
  exact ⟨hu, hround fuel i reader r1 conn harr hw, rfl, rfl, rfl⟩

/-- C13, amended, in a round that finds the frame in the buffer with an empty frame behind
it, and on a connection that delivers just the frame, after two other requests were
served. -/
theorem end_to_end_user_exists_witness :
    (ArrivesWhole ⟨netstr (bytes "user-exists admin@example.com") ++ bytes "0:,", []⟩
        (bytes "user-exists admin@example.com") ⟨bytes "0:,", []⟩
      ∧ (⟨[], [], true⟩ : Conn).writable = true)
    ∧ (handleConnection (fun _ => 0)
        ⟨[netstr (bytes "user-exists admin@example.com")], [], true⟩
        (serve State.init [(0, bytes "user-exists admin@example.com"),
          (Second, bytes "virtual-aliases postmaster@example.com")]).2).conn.wr =
      bytes "20:OK admin@example.com," :=
  ⟨⟨⟨by decide, Or.inl ⟨rfl, rfl⟩⟩, rfl⟩,
    (end_to_end_user_exists (fun _ => 0)
      [(0, bytes "user-exists admin@example.com"),
        (Second, bytes "virtual-aliases postmaster@example.com")] 0 0
      ⟨netstr (bytes "user-exists admin@example.com") ++ bytes "0:,", []⟩ ⟨bytes "0:,", []⟩
      ⟨[], [], true⟩ ⟨by decide, Or.inl ⟨rfl, rfl⟩⟩ rfl).2.2.1⟩

/-- C14. A framing error ends the session. When `readNetstring` returns an error in some
round, the handler returns in that round with the connection closed: nothing more is
written, the reader stays as the failed call left it, so no later byte is decoded or
dispatched, and the cache and the query log are as before the round. -/
theorem handleLoop_stops_on_framing_error (clock : Nat → Nat) (fuel i : Nat)
    (reader : Reader) (conn : Conn) (st : State) (e : NetstringError)
    (h : (readNetstring reader).1 = .error e) :
    handleLoop clock (fuel + 1) i reader conn st =
      ⟨conn, (readNetstring reader).2, st, .readError e, true⟩ := by
  exact handleLoop_round_error clock fuel i reader _ conn st e (Prod.ext h rfl)

/-- C14, on a stream that opens with the bad length `x:` and carries a well-formed request
after it: nothing is written and the request stays unread. -/
theorem handleLoop_stops_on_framing_error_witness :
    (readNetstring (NewReader [bytes "x:28:user-exists test@example.com,"])).1 =
        .error .invalidLength
    ∧ handleConnection (fun _ => 0) ⟨[bytes "x:28:user-exists test@example.com,"], [], true⟩
        State.init =
      ⟨⟨[bytes "x:28:user-exists test@example.com,"], [], true⟩,
        ⟨bytes "28:user-exists test@example.com,", []⟩, State.init,
        .readError .invalidLength, true⟩ :=
  ⟨by decide, by
    have h := handleLoop_stops_on_framing_error (fun _ => 0)
      (pending [bytes "x:28:user-exists test@example.com,"]) 0
      (NewReader [bytes "x:28:user-exists test@example.com,"])
      ⟨[bytes "x:28:user-exists test@example.com,"], [], true⟩ State.init .invalidLength
      (by decide)
    have hr : (readNetstring (NewReader [bytes "x:28:user-exists test@example.com,"])).2 =
        ⟨bytes "28:user-exists test@example.com,", []⟩ := by decide
    rw [hr] at h
    exact h⟩

/-- C15, as the claim words it. The well-formed frame `0:,` carries a payload of zero
fields, and the handler writes nothing for it: no `PERM invalid request format` frame.
For the one-field request `onlyonetoken` nothing is written either when the connection
refuses the write, and the run ends there. And when the request `onlyonetoken` is followed
by a well-formed frame that arrives in two reads, `27:virtual-` and
`domains example.com,`, the `PERM` frame is all that is written: the run ends on
`expected comma`. -/
theorem empty_request_gets_no_PERM :
    (Fields ([] : List UInt8)).length ≠ 2
    ∧ readNetstring (NewReader [bytes "0:,"]) = (.ok [], ⟨[], []⟩)
    ∧ (handleConnection (fun _ => 0) ⟨[bytes "0:,"], [], true⟩ State.init).conn.wr = []
    ∧ (handleConnection (fun _ => 0) ⟨[bytes "12:onlyonetoken,"], [], false⟩
        State.init).conn.wr = []
    ∧ (handleConnection (fun _ => 0) ⟨[bytes "12:onlyonetoken,"], [], false⟩
        State.init).exit = .writeError
    ∧ netstr (bytes "virtual-domains example.com") =
        bytes "27:virtual-" ++ bytes "domains example.com,"
    ∧ (handleConnection (fun _ => 0)
        ⟨[bytes "12:onlyonetoken,27:virtual-", bytes "domains example.com,"], [], true⟩
        State.init).conn.wr = bytes "27:PERM invalid request format,"
    ∧ (handleConnection (fun _ => 0)
        ⟨[bytes "12:onlyonetoken,27:virtual-", bytes "domains example.com,"], [], true⟩
        State.init).exit = .readError (.expectedComma 100) := by
  decide

theorem handleLoop_round_bad_format (clock : Nat → Nat) (fuel i : Nat)
    (reader r1 : Reader) (conn : Conn) (st : State) (request : List UInt8)
    (hread : readNetstring reader = (.ok request, r1)) (hne : request ≠ [])
    (hcount : (Fields request).length ≠ 2) (hw : conn.writable = true) :
    handleLoop clock (fuel + 1) i reader conn st =
      handleLoop clock fuel (i + 1) r1
        ⟨conn.rd, conn.wr ++ netstr (bytes "PERM invalid request format"), true⟩ st := by
  have hresp : processRequest st (clock i) request =
      (bytes "PERM invalid request format", st) := by
    unfold processRequest
    split
    · rename_i mapname key hf
      rw [hf] at hcount
      exact absurd rfl hcount
    · rfl
  rw [handleLoop_round_request clock fuel i reader r1 conn st request hread hne hw, hresp]

/-- C15, amended. When the frame of a request that is not empty and does not split into
exactly two fields arrives whole, on a connection that takes the write, the handler writes
the frame of `PERM invalid request format`, leaves the cache as it is and goes on with the
next round. A frame that arrives whole after it is then decoded and handled as in any
round: its request is dispatched on the unchanged cache and the response written as the
next frame, or, if it is empty, skipped. -/
theorem handleLoop_survives_bad_format (clock : Nat → Nat) (fuel i : Nat)
    (reader r1 : Reader) (conn : Conn) (st : State) (request : List UInt8)
    (harr : ArrivesWhole reader request r1) (hne : request ≠ [])
    (hcount : (Fields request).length ≠ 2) (hw : conn.writable = true) :
    handleLoop clock (fuel + 1) i reader conn st =
        handleLoop clock fuel (i + 1) r1
          ⟨conn.rd, conn.wr ++ netstr (bytes "PERM invalid request format"), true⟩ st
    ∧ ∀ (next : List UInt8) (r2 : Reader), ArrivesWhole r1 next r2 →
        handleLoop clock (fuel + 1 + 1) i reader conn st =
          if next = [] then
            handleLoop clock fuel (i + 1 + 1) r2
              ⟨conn.rd, conn.wr ++ netstr (bytes "PERM invalid request format"), true⟩ st
          else
            handleLoop clock fuel (i + 1 + 1) r2
              ⟨conn.rd, conn.wr ++ netstr (bytes "PERM invalid request format")
                ++ netstr (processRequest st (clock (i + 1)) next).1, true⟩
              (processRequest st (clock (i + 1)) next).2 := by
  have hread := readNetstring_arrives_whole _ _ _ harr
  refine ⟨handleLoop_round_bad_format clock fuel i reader r1 conn st request hread hne hcount hw,
    ?_⟩
  intro next r2 hnext
  have hread2 := readNetstring_arrives_whole _ _ _ hnext
  rw [handleLoop_round_bad_format clock (fuel + 1) i reader r1 conn st request hread hne
    hcount hw]
  by_cases h0 : next = []
  · rw [if_pos h0]
    rw [h0] at hread2
    exact handleLoop_round_empty clock fuel (i + 1) r1 r2 _ st hread2
  · rw [if_neg h0]
    exact handleLoop_round_request clock fuel (i + 1) r1 r2 _ st next hread2 h0 rfl

/-- C15, amended, on a connection that delivers in one read the one-field request
`onlyonetoken` and the request `virtual-domains example.com` and then ends: both are
answered, the first with the `PERM` frame, and the run ends at the end of the stream. -/
theorem handleLoop_survives_bad_format_witness :
    (ArrivesWhole (NewReader [bytes "12:onlyonetoken,27:virtual-domains example.com,"])
        (bytes "onlyonetoken") ⟨bytes "27:virtual-domains example.com,", []⟩
      ∧ bytes "onlyonetoken" ≠ [] ∧ (Fields (bytes "onlyonetoken")).length ≠ 2
      ∧ ArrivesWhole ⟨bytes "27:virtual-domains example.com,", []⟩
        (bytes "virtual-domains example.com") ⟨[], []⟩)
    ∧ (handleConnection (fun _ => 0)
        ⟨[bytes "12:onlyonetoken,27:virtual-domains example.com,"], [], true⟩
        State.init).conn.wr = bytes "27:PERM invalid request format,2:OK,"
    ∧ (handleConnection (fun _ => 0)
        ⟨[bytes "12:onlyonetoken,27:virtual-domains example.com,"], [], true⟩
        State.init).exit = .readError .failedToReadLength := by
  have ha1 : ArrivesWhole (NewReader [bytes "12:onlyonetoken,27:virtual-domains example.com,"])
      (bytes "onlyonetoken") ⟨bytes "27:virtual-domains example.com,", []⟩ :=
    ⟨by decide, Or.inr ⟨rfl, by decide, by decide⟩⟩
  have ha2 : ArrivesWhole ⟨bytes "27:virtual-domains example.com,", []⟩
      (bytes "virtual-domains example.com") ⟨[], []⟩ :=
    ⟨by decide, Or.inl ⟨by decide, rfl⟩⟩
  have hp : pending [bytes "12:onlyonetoken,27:virtual-domains example.com,"] + 1 =
      46 + 1 + 1 := by decide
  have h := (handleLoop_survives_bad_format (fun _ => 0) 46 0
    (NewReader [bytes "12:onlyonetoken,27:virtual-domains example.com,"])
    ⟨bytes "27:virtual-domains example.com,", []⟩
    ⟨[bytes "12:onlyonetoken,27:virtual-domains example.com,"], [], true⟩
    State.init (bytes "onlyonetoken") ha1 (by decide) (by decide) rfl).2
    (bytes "virtual-domains example.com") ⟨[], []⟩ ha2
  rw [← hp, if_neg (by decide)] at h
  refine ⟨⟨ha1, by decide, by decide, ha2⟩, ?_, ?_⟩
  · rw [handleConnection, h]
    decide
  · rw [handleConnection, h]
    decide

/-- C16. An empty request is a no-op. When a round decodes the empty payload, the handler
goes on with the next round on what the reader has left, with the connection, the cache
and the query log untouched: nothing is dispatched and nothing written. The frame `0:,`
at the head of the stream is such a round. -/
theorem handleLoop_skips_empty_request (clock : Nat → Nat) (fuel i : Nat)
    (reader : Reader) (conn : Conn) (st : State)
    (h : (readNetstring reader).1 = .ok []) :
    handleLoop clock (fuel + 1) i reader conn st =
        handleLoop clock fuel (i + 1) (readNetstring reader).2 conn st
    ∧ ∀ rest : List (List UInt8),
        readNetstring (NewReader (bytes "0:," :: rest)) = (.ok [], ⟨[], rest⟩) := by
  refine ⟨handleLoop_round_empty clock fuel i reader _ conn st (Prod.ext h rfl), ?_⟩
  intro rest
  have h0 := readNetstring_frame_whole [] 44 rest (by decide)
  have e : formatInt ([] : List UInt8).length ++ 58 :: ([] ++ [44]) = bytes "0:," := by decide
  rw [e] at h0
  rw [h0]
  simp

/-- C16, on a connection that delivers `0:,` and then the request
`virtual-domains example.com`: the only frame written is the answer to the request. -/
theorem handleLoop_skips_empty_request_witness :
    (readNetstring (NewReader [bytes "0:,", bytes "27:virtual-domains example.com,"])).1 =
        .ok []
    ∧ (handleConnection (fun _ => 0)
        ⟨[bytes "0:,", bytes "27:virtual-domains example.com,"], [], true⟩
        State.init).conn.wr = bytes "2:OK,"
    ∧ (handleConnection (fun _ => 0)
        ⟨[bytes "0:,", bytes "27:virtual-domains example.com,"], [], true⟩
        State.init).st.queries = [.domain (bytes "example.com")] := by
  have h := (handleLoop_skips_empty_request (fun _ => 0)
    (pending [bytes "0:,", bytes "27:virtual-domains example.com,"]) 0
    (NewReader [bytes "0:,", bytes "27:virtual-domains example.com,"])
    ⟨[bytes "0:,", bytes "27:virtual-domains example.com,"], [], true⟩ State.init
    (by decide)).1
  refine ⟨by decide, ?_, ?_⟩
  · rw [handleConnection, h]
    decide
  · rw [handleConnection, h]
    decide

/-! ### Frames followed by more bytes -/

theorem take_stream (ds q : List UInt8) (h : ds.length < defaultBufSize) :
    (ds ++ 58 :: q).take defaultBufSize =
      ds ++ 58 :: q.take (defaultBufSize - 1 - ds.length) := by
  have e : defaultBufSize - ds.length = (defaultBufSize - 1 - ds.length) + 1 := by omega
  rw [List.take_append_eq_append_take, List.take_of_length_le (by omega), e, List.take_succ_cons]

theorem drop_stream (ds q : List UInt8) (h : ds.length < defaultBufSize) :
    (ds ++ 58 :: q).drop defaultBufSize = q.drop (defaultBufSize - 1 - ds.length) := by
  have e : defaultBufSize - ds.length = (defaultBufSize - 1 - ds.length) + 1 := by omega
  rw [List.drop_append_eq_append_drop, List.drop_of_length_le (by omega), e, List.drop_succ_cons]
  simp

/-- A stream that arrives in one piece and whose first frame does not fit the buffer after
the first read, whatever bytes `y` follow the payload `a ++ x :: tl`: as for a lone frame,
`Read` hands over `a`, the part of the payload that the buffer took, and `x` is read
where the terminator is expected. -/
theorem readNetstring_stream_overlong (a tl y : List UInt8) (x : UInt8)
    (hp : (a ++ x :: tl).length ≤ maxAlloc) (ha0 : a ≠ [])
    (ha : a.length = defaultBufSize - 1 - (formatInt (a ++ x :: tl).length).length) :
    (readNetstring (NewReader
        [formatInt (a ++ x :: tl).length ++ 58 :: (a ++ x :: (tl ++ y))])).1 =
      if x ≠ 44 then .error (.expectedComma x)
      else .ok (a ++ List.replicate (1 + tl.length) 0) := by
  have hd15 := formatInt_length_maxAlloc _ hp
  have hd : (formatInt (a ++ x :: tl).length).length < defaultBufSize :=
    lt_of_le_of_lt hd15 (by decide)
  have hne : formatInt (a ++ x :: tl).length ++ 58 :: (a ++ x :: (tl ++ y)) ≠ [] := by simp
  have hlong' : ∀ ds : List UInt8, a.length = defaultBufSize - 1 - ds.length →
      ds.length < defaultBufSize →
      ¬ (ds ++ 58 :: (a ++ x :: (tl ++ y))).length ≤ defaultBufSize := by
    intro ds h1 h2
    simp only [List.length_append, List.length_cons]
    omega
  have hlong := hlong' _ ha hd
  have hR := ReadString_fresh (formatInt (a ++ x :: tl).length ++ 58 :: (a ++ x :: (tl ++ y)))
    (formatInt (a ++ x :: tl).length) a []
    (by rw [take_stream _ _ hd, ← ha, List.take_left'] ; rfl)
    (formatInt_ne_colon _)
  have hrest : (formatInt (a ++ x :: tl).length ++ 58 :: (a ++ x :: (tl ++ y))).drop
      defaultBufSize = x :: (tl ++ y) := by
    rw [drop_stream _ _ hd, ← ha, List.drop_left]
  rw [connRead_cons_snd _ _ _ hne, if_neg hlong, hrest] at hR
  rw [NewReader, readNetstring_after_length _ _ _ _ hR
    (by rw [TrimSuffix_append]; exact Atoi_formatInt _ (lt_of_le_of_lt hp (by decide))) hp]
  have hn0 : (a ++ x :: tl).length ≠ 0 := by simp
  have htake : a.take (a ++ x :: tl).length = a := List.take_of_length_le (by simp)
  have hdrop : a.drop (a ++ x :: tl).length = [] := List.drop_of_length_le (by simp)
  have hsub : (a ++ x :: tl).length - a.length = 1 + tl.length := by simp; omega
  simp only [Read, hn0, ha0, if_false, htake, hdrop, hsub]
  obtain ⟨r3, hB⟩ := ReadByte_fresh x (tl ++ y) []
  rw [hB]
  by_cases hx : x = 44 <;> simp [hx]

theorem readNetstring_4092_then_frame :
    (readNetstring (NewReader [netstr (List.replicate 4092 98) ++ netstr (bytes "c")])).1 =
      .error (.expectedComma 98) := by
  have hlen : (List.replicate 4091 (98 : UInt8) ++ 98 :: []).length = 4092 := by
    rw [List.length_append, List.length_replicate]; rfl
  have h := readNetstring_stream_overlong (List.replicate 4091 98) [] (44 :: bytes "1:c,") 98
    (by rw [hlen]; decide)
    (by rw [show (4091 : Nat) = 4090 + 1 from rfl, List.replicate_succ]; exact List.cons_ne_nil _ _)
    (by rw [hlen, List.length_replicate, formatInt_4092]; rfl)
  have e : netstr (bytes "c") = bytes "1:c," := by decide
  rw [netstr_eq, e, replicate_4092]
  simp only [List.nil_append, List.append_assoc, List.cons_append] at h ⊢
  rw [h]
  rfl

/-- C19. Frame boundaries are lost on a short read. The stream made of the frame for a
payload of 4092 bytes `b` and the frame `1:c,`, delivered in full, does not give back the
payload: the first call ends with `expected comma`. The stream `2:ab,1:c,`, arriving as
`2:a` and `b,1:c,`, fails in the same way, with `,1:c,` left unread instead of `1:c,`. -/
theorem frame_boundary_lost_on_short_read :
    (readNetstring (NewReader [netstr (List.replicate 4092 98) ++ netstr (bytes "c")])).1 =
      .error (.expectedComma 98)
    ∧ netstr (bytes "ab") ++ netstr (bytes "c") = bytes "2:a" ++ bytes "b,1:c,"
    ∧ readNetstring (NewReader [bytes "2:a", bytes "b,1:c,"]) =
      (.error (.expectedComma 98), ⟨bytes ",1:c,", []⟩) :=
  ⟨readNetstring_4092_then_frame, by decide, by decide⟩

/-! ### Caching within one table -/

theorem serve_invariant (P : State → Prop) (good : List UInt8 → Prop)
    (hstep : ∀ st now line, P st → good line →
      (processRequest st now line).1 = (processRequest State.init now line).1
        ∧ P (processRequest st now line).2)
    (reqs : List (Nat × List UInt8)) (st : State) (hst : P st)
    (hgood : ∀ q ∈ reqs, good q.2) :
    (serve st reqs).1 = reqs.map (fun q => (processRequest State.init q.1 q.2).1)
      ∧ P (serve st reqs).2 := by
  induction reqs generalizing st with
  | nil => exact ⟨rfl, hst⟩
  | cons q rest ih =>
    obtain ⟨now, line⟩ := q
    have h1 := hstep st now line hst (hgood (now, line) (by simp))
    have h2 := ih (processRequest st now line).2 h1.2 (fun q hq => hgood q (by simp [hq]))
    simp only [serve, List.map_cons]
    exact ⟨by rw [h1.1, h2.1], h2.2⟩

theorem handleUserExistsMap_agrees (st : State) (now : Nat) (key : List UInt8)
    (hst : ∀ k e, st.cache k = some e → e.exists = checkUserInTestDB k) :
    (handleUserExistsMap st now key).1 =
        (if checkUserInTestDB key then bytes "OK " ++ key else bytes "NOTFOUND")
    ∧ ∀ k e, (handleUserExistsMap st now key).2.cache k = some e →
        e.exists = checkUserInTestDB k := by
  have hset : ∀ k e, (st.cache.set key ⟨checkUserInTestDB key, now + 60 * Second⟩) k = some e →
      e.exists = checkUserInTestDB k := by
    intro k e hk
    simp only [Cache.set] at hk
    split at hk
    · rename_i hkk
      simp only [Option.some.injEq] at hk
      rw [← hk, hkk]
    · exact hst k e hk
  unfold handleUserExistsMap userExists
  cases hc : st.cache key with
  | none =>
    simp only
    refine ⟨by split <;> simp_all, ?_⟩
    split <;> exact hset
  | some entry =>
    have he := hst key entry hc
    by_cases hlive : now < entry.expires
    · simp only [hlive, if_true, he]
      refine ⟨by split <;> simp_all, ?_⟩
      split <;> exact hst
    · simp only [hlive, if_false]
      refine ⟨by split <;> simp_all, ?_⟩
      split <;> exact hset

theorem handleVirtualDomainsMap_agrees (st : State) (now : Nat) (key : List UInt8)
    (hst : ∀ k e, st.cache k = some e →
      ∃ d, k = bytes "domain:" ++ d ∧ e.exists = checkDomainInTestDB d) :
    (handleVirtualDomainsMap st now key).1 =
        (if checkDomainInTestDB key then bytes "OK" else bytes "NOTFOUND")
    ∧ ∀ k e, (handleVirtualDomainsMap st now key).2.cache k = some e →
        ∃ d, k = bytes "domain:" ++ d ∧ e.exists = checkDomainInTestDB d := by
  have hset : ∀ k e, (st.cache.set (bytes "domain:" ++ key)
      ⟨checkDomainInTestDB key, now + 300 * Second⟩) k = some e →
      ∃ d, k = bytes "domain:" ++ d ∧ e.exists = checkDomainInTestDB d := by
    intro k e hk
    simp only [Cache.set] at hk
    split at hk
    · rename_i hkk
      simp only [Option.some.injEq] at hk
      exact ⟨key, hkk, by rw [← hk]⟩
    · exact hst k e hk
  unfold handleVirtualDomainsMap domainExists
  cases hc : st.cache (bytes "domain:" ++ key) with
  | none =>
    simp only [hc]
    refine ⟨by split <;> simp_all, ?_⟩
    split <;> exact hset
  | some entry =>
    obtain ⟨d, hd, he⟩ := hst _ entry hc
    have hdk : key = d := List.append_cancel_left hd
    subst hdk
    by_cases hlive : now < entry.expires
    · simp only [hc, hlive, if_true, he]
      refine ⟨by split <;> simp_all, ?_⟩
      split <;> exact hst
    · simp only [hc, hlive, if_false]
      refine ⟨by split <;> simp_all, ?_⟩
      split <;> exact hset

theorem handleVirtualAliasesMap_agrees (st : State) (now : Nat) (key : List UInt8)
    (hst : ∀ k e, st.cache k = some e →
      ∃ a, k = bytes "alias:" ++ a ∧ e.exists = decide (checkAliasInTestDB a ≠ [])) :
    (handleVirtualAliasesMap st now key).1 =
        (if checkAliasInTestDB key = [] then bytes "NOTFOUND"
          else bytes "OK " ++ checkAliasInTestDB key)
    ∧ ∀ k e, (handleVirtualAliasesMap st now key).2.cache k = some e →
        ∃ a, k = bytes "alias:" ++ a ∧ e.exists = decide (checkAliasInTestDB a ≠ []) := by
  have hst1 : (match st.cache (bytes "alias:" ++ key) with
      | some entry => if now < entry.expires then st else st
      | none => st) = st := by
    split
    · split <;> rfl
    · rfl
  have hset : ∀ k e, (st.cache.set (bytes "alias:" ++ key)
      ⟨decide (checkAliasInTestDB key ≠ []), now + 300 * Second⟩) k = some e →
      ∃ a, k = bytes "alias:" ++ a ∧ e.exists = decide (checkAliasInTestDB a ≠ []) := by
    intro k e hk
    simp only [Cache.set] at hk
    split at hk
    · rename_i hkk
      simp only [Option.some.injEq] at hk
      exact ⟨key, hkk, by rw [← hk]⟩
    · exact hst k e hk
  unfold handleVirtualAliasesMap resolveAlias
  simp only [hst1]
  refine ⟨by split <;> simp_all, ?_⟩
  split <;> exact hset

/-- C20. Caching is transparent within one table. Serve, from the empty cache, any sequence
of requests that all split into the same table name, one of the three, and a key, at any
clock readings: every response is the one `processRequest` gives to that request on the
empty cache, and in the cache at the end each entry's flag is the answer of that table's
directory for the entry's key. -/
theorem caching_transparent_within_table (table : List UInt8)
    (reqs : List (Nat × List UInt8))
    (h : ∀ q ∈ reqs, ∃ key, Fields q.2 = [table, key]) :
    (table = bytes "user-exists" →
      (serve State.init reqs).1 = reqs.map (fun q => (processRequest State.init q.1 q.2).1)
      ∧ ∀ k e, (serve State.init reqs).2.cache k = some e →
          e.exists = checkUserInTestDB k)
    ∧ (table = bytes "virtual-domains" →
      (serve State.init reqs).1 = reqs.map (fun q => (processRequest State.init q.1 q.2).1)
      ∧ ∀ k e, (serve State.init reqs).2.cache k = some e →
          ∃ d, k = bytes "domain:" ++ d ∧ e.exists = checkDomainInTestDB d)
    ∧ (table = bytes "virtual-aliases" →
      (serve State.init reqs).1 = reqs.map (fun q => (processRequest State.init q.1 q.2).1)
      ∧ ∀ k e, (serve State.init reqs).2.cache k = some e →
          ∃ a, k = bytes "alias:" ++ a ∧ e.exists = decide (checkAliasInTestDB a ≠ [])) := by
  have hinit : ∀ k e, State.init.cache k = some e → False := by
    intro k e hk
    simp [State.init_cache] at hk
  refine ⟨?_, ?_, ?_⟩
  · intro ht
    subst ht
    refine serve_invariant
      (fun st => ∀ k e, st.cache k = some e → e.exists = checkUserInTestDB k)
      (fun line => ∃ key, Fields line = [bytes "user-exists", key]) ?_ reqs State.init
      (fun k e hk => (hinit k e hk).elim) h
    intro st now line hst ⟨key, hf⟩
    rw [processRequest_user st now line key hf, processRequest_user State.init now line key hf]
    have h1 := handleUserExistsMap_agrees st now key hst
    have h0 := handleUserExistsMap_agrees State.init now key (fun k e hk => (hinit k e hk).elim)
    exact ⟨by rw [h1.1, h0.1], h1.2⟩
  · intro ht
    subst ht
    refine serve_invariant
      (fun st => ∀ k e, st.cache k = some e →
        ∃ d, k = bytes "domain:" ++ d ∧ e.exists = checkDomainInTestDB d)
      (fun line => ∃ key, Fields line = [bytes "virtual-domains", key]) ?_ reqs State.init
      (fun k e hk => (hinit k e hk).elim) h
    intro st now line hst ⟨key, hf⟩
    rw [processRequest_domain st now line key hf,
      processRequest_domain State.init now line key hf]
    have h1 := handleVirtualDomainsMap_agrees st now key hst
    have h0 := handleVirtualDomainsMap_agrees State.init now key
      (fun k e hk => (hinit k e hk).elim)
    exact ⟨by rw [h1.1, h0.1], h1.2⟩
  · intro ht
    subst ht
    refine serve_invariant
      (fun st => ∀ k e, st.cache k = some e →
        ∃ a, k = bytes "alias:" ++ a ∧ e.exists = decide (checkAliasInTestDB a ≠ []))
      (fun line => ∃ key, Fields line = [bytes "virtual-aliases", key]) ?_ reqs State.init
      (fun k e hk => (hinit k e hk).elim) h
    intro st now line hst ⟨key, hf⟩
    rw [processRequest_alias st now line key hf,
      processRequest_alias State.init now line key hf]
    have h1 := handleVirtualAliasesMap_agrees st now key hst
    have h0 := handleVirtualAliasesMap_agrees State.init now key
      (fun k e hk => (hinit k e hk).elim)
    exact ⟨by rw [h1.1, h0.1], h1.2⟩

/-- C20, on three `user-exists` requests: a first lookup, a repeat within the 60 seconds,
and a lookup of an unknown address after them. -/
theorem caching_transparent_within_table_witness :
    (Fields (bytes "user-exists a@test.com") = [bytes "user-exists", bytes "a@test.com"]
      ∧ Fields (bytes "user-exists nobody@nowhere.org") =
        [bytes "user-exists", bytes "nobody@nowhere.org"])
    ∧ (serve State.init
        [(0, bytes "user-exists a@test.com"), (10 * Second, bytes "user-exists a@test.com"),
          (70 * Second, bytes "user-exists nobody@nowhere.org")]).1 =
      [bytes "OK a@test.com", bytes "OK a@test.com", bytes "NOTFOUND"] := by
  have hf1 : Fields (bytes "user-exists a@test.com") =
      [bytes "user-exists", bytes "a@test.com"] := by decide
  have hf2 : Fields (bytes "user-exists nobody@nowhere.org") =
      [bytes "user-exists", bytes "nobody@nowhere.org"] := by decide
  refine ⟨⟨hf1, hf2⟩, ?_⟩
  rw [((caching_transparent_within_table (bytes "user-exists")
    [(0, bytes "user-exists a@test.com"), (10 * Second, bytes "user-exists a@test.com"),
      (70 * Second, bytes "user-exists nobody@nowhere.org")]
    (by
      intro q hq
      simp only [List.mem_cons, List.mem_singleton, List.not_mem_nil, or_false] at hq
      rcases hq with rfl | rfl | rfl
      · exact ⟨_, hf1⟩
      · exact ⟨_, hf1⟩
      · exact ⟨_, hf2⟩)).1 rfl).1]
  decide

/-! ### Runes and fields -/

theorem DecodeRune_width_le (b : UInt8) (rest : List UInt8) :
    (DecodeRune (b :: rest)).2 ≤ (b :: rest).length := by
  unfold DecodeRune
  simp only
  split_ifs <;> first
    | (simp only [List.length_cons]; omega)
    | (split <;> first
        | (simp only [List.length_cons]; omega)
        | (split_ifs <;> simp only [List.length_cons] <;> omega))

theorem runes_cons (b : UInt8) (rest : List UInt8) :
    runes (b :: rest) =
      ((DecodeRune (b :: rest)).1, (b :: rest).take (DecodeRune (b :: rest)).2) ::
        runes ((b :: rest).drop (DecodeRune (b :: rest)).2) := by
  have hw := DecodeRune_width_pos b rest
  have hl : ((b :: rest).drop (DecodeRune (b :: rest)).2).length ≤ rest.length := by
    rw [List.length_drop]; simp only [List.length_cons]; omega
  rw [runes, List.length_cons, rangeString, runes]
  rw [rangeString_fuel rest.length _ _ hl (Nat.le_refl _)]

theorem DecodeRune_one (b0 : UInt8) (y : List UInt8)
    (h : (DecodeRune (b0 :: y)).2 ≤ 1) : DecodeRune [b0] = DecodeRune (b0 :: y) := by
  rcases y with _ | ⟨c0, _ | ⟨c1, _ | ⟨c2, y⟩⟩⟩ <;>
    (simp only [DecodeRune] at h ⊢ <;> split_ifs at h ⊢ <;> first | rfl | omega)

theorem DecodeRune_two (b0 b1 : UInt8) (y : List UInt8)
    (h : (DecodeRune (b0 :: b1 :: y)).2 ≤ 2) :
    DecodeRune [b0, b1] = DecodeRune (b0 :: b1 :: y) := by
  rcases y with _ | ⟨c1, _ | ⟨c2, y⟩⟩ <;>
    (simp only [DecodeRune] at h ⊢ <;> split_ifs at h ⊢ <;> first | rfl | omega)

theorem DecodeRune_three (b0 b1 b2 : UInt8) (y : List UInt8)
    (h : (DecodeRune (b0 :: b1 :: b2 :: y)).2 ≤ 3) :
    DecodeRune [b0, b1, b2] = DecodeRune (b0 :: b1 :: b2 :: y) := by
  rcases y with _ | ⟨c2, y⟩ <;>
    (simp only [DecodeRune] at h ⊢ <;> split_ifs at h ⊢ <;> first | rfl | omega)

theorem DecodeRune_four (b0 b1 b2 b3 : UInt8) (x y : List UInt8) :
    DecodeRune (b0 :: b1 :: b2 :: b3 :: x) = DecodeRune (b0 :: b1 :: b2 :: b3 :: (x ++ y)) := by
  simp only [DecodeRune]

/-- Decoding the first rune of a string does not look past the rune: cutting the string
anywhere behind it leaves the result as it is. -/
theorem DecodeRune_append (x y : List UInt8) (hx : x ≠ [])
    (h : (DecodeRune (x ++ y)).2 ≤ x.length) : DecodeRune x = DecodeRune (x ++ y) := by
  rcases x with _ | ⟨b0, _ | ⟨b1, _ | ⟨b2, _ | ⟨b3, x⟩⟩⟩⟩
  · exact absurd rfl hx
  · exact DecodeRune_one b0 y h
  · exact DecodeRune_two b0 b1 y h
  · exact DecodeRune_three b0 b1 b2 y h
  · exact DecodeRune_four b0 b1 b2 b3 x y

theorem runes_nil : runes [] = [] := rfl

theorem runes_ne_nil (b : UInt8) (rest : List UInt8) : runes (b :: rest) ≠ [] := by
  rw [runes_cons]; exact List.cons_ne_nil _ _

/-- The bytes of the runes of a string, put together again, are the string. -/
theorem runes_bytes (s : List UInt8) : ((runes s).map Prod.snd).flatten = s := by
  generalize hn : s.length = n
  induction n using Nat.strong_induction_on generalizing s with
  | _ n ih =>
    cases s with
    | nil => rfl
    | cons b rest =>
      have hw := DecodeRune_width_pos b rest
      rw [runes_cons, List.map_cons, List.flatten_cons,
        ih _ (by rw [← hn, List.length_drop]; simp only [List.length_cons]; omega) _ rfl,
        List.take_append_drop]

/-- The runes of a string from a rune boundary on are the runes of what stands behind the
boundary. -/
theorem runes_tail (L1 L2 : List (Nat × List UInt8)) (s : List UInt8)
    (h : runes s = L1 ++ L2) : runes ((L2.map Prod.snd).flatten) = L2 := by
  induction L1 generalizing s with
  | nil =>
    rw [List.nil_append] at h
    rw [← h, runes_bytes]
  | cons e L1 ih =>
    cases s with
    | nil => simp [runes_nil] at h
    | cons b rest =>
      rw [runes_cons, List.cons_append] at h
      exact ih _ (List.cons.inj h).2

/-- The runes of a string up to a rune boundary are the runes of what stands before the
boundary. -/
theorem runes_head (L1 L2 : List (Nat × List UInt8)) (x y : List UInt8)
    (h : runes (x ++ y) = L1 ++ L2) (hx : (L1.map Prod.snd).flatten = x) :
    runes x = L1 := by
  induction L1 generalizing x with
  | nil =>
    simp only [List.map_nil, List.flatten_nil] at hx
    rw [← hx]; rfl
  | cons e L1 ih =>
    obtain ⟨r, bs⟩ := e
    simp only [List.map_cons, List.flatten_cons] at hx
    cases hz : x ++ y with
    | nil => rw [hz] at h; simp [runes_nil] at h
    | cons c z =>
      rw [hz, runes_cons, List.cons_append] at h
      obtain ⟨he, ht⟩ := List.cons.inj h
      obtain ⟨hr, hb⟩ := Prod.mk.inj he
      have hwpos := DecodeRune_width_pos c z
      have hwle := DecodeRune_width_le c z
      have hlen : bs.length = (DecodeRune (c :: z)).2 := by
        rw [← hb, List.length_take]; omega
      have hxne : x ≠ [] := by
        intro hx0
        rw [hx0] at hx
        have := congrArg List.length hx
        simp only [List.length_append, List.length_nil] at this
        omega
      have hxlen : (DecodeRune (x ++ y)).2 ≤ x.length := by
        rw [hz, ← hlen, ← hx, List.length_append]; omega
      have hD := DecodeRune_append x y hxne hxlen
      obtain ⟨c', x', hx'⟩ := List.exists_cons_of_ne_nil hxne
      have hdrop : (c :: z).drop (DecodeRune (c :: z)).2 = (L1.map Prod.snd).flatten ++ y := by
        rw [← hlen, ← hz, ← hx, List.append_assoc, List.drop_left]
      rw [hdrop] at ht
      have ih' := ih _ ht rfl
      rw [hx', runes_cons, ← hx', hD, hz, hr]
      congr 1
      · rw [← hlen, ← hx, List.take_left]
      · rw [← hlen, ← hx, List.drop_left, ih']

theorem fieldsOf_no_space (L : List (Nat × List UInt8)) (c : List UInt8)
    (h : ∀ e ∈ L, IsSpace e.1 = false) :
    fieldsOf L c =
      if c ++ (L.map Prod.snd).flatten = [] then [] else [c ++ (L.map Prod.snd).flatten] := by
  induction L generalizing c with
  | nil => simp [fieldsOf]
  | cons e L ih =>
    obtain ⟨r, bs⟩ := e
    have hr : IsSpace r = false := h (r, bs) (by simp)
    rw [fieldsOf]
    simp only [hr, Bool.false_eq_true, if_false]
    rw [ih _ (fun e he => h e (by simp [he]))]
    simp only [List.map_cons, List.flatten_cons, List.append_assoc]

theorem fieldsOf_tokens (L Lc : List (Nat × List UInt8))
    (hinv : runes (((Lc ++ L).map Prod.snd).flatten) = Lc ++ L)
    (hns : ∀ e ∈ Lc, IsSpace e.1 = false) :
    ∀ t ∈ fieldsOf L ((Lc.map Prod.snd).flatten), t ≠ [] ∧ Fields t = [t] := by
  induction L generalizing Lc with
  | nil =>
    intro t ht
    rw [fieldsOf] at ht
    rw [List.append_nil] at hinv
    split at ht
    · simp at ht
    · rename_i hne
      simp only [List.mem_singleton] at ht
      subst ht
      refine ⟨hne, ?_⟩
      rw [Fields, hinv, fieldsOf_no_space Lc [] hns]
      simp [hne]
  | cons e L ih =>
    obtain ⟨r, bs⟩ := e
    intro t ht
    rw [fieldsOf] at ht
    have hassoc : Lc ++ [(r, bs)] ++ L = Lc ++ (r, bs) :: L := by simp
    by_cases hr : IsSpace r = true
    · simp only [hr, if_true] at ht
      have htail : runes ((L.map Prod.snd).flatten) = L :=
        runes_tail (Lc ++ [(r, bs)]) L _ (by rw [hassoc]; exact hinv)
      have hrest : ∀ t ∈ fieldsOf L [], t ≠ [] ∧ Fields t = [t] := by
        have := ih [] (by simpa using htail) (by simp)
        simpa using this
      split at ht
      · exact hrest t ht
      · rename_i hne
        rcases List.mem_cons.1 ht with h1 | h1
        · subst h1
          have hsplit : (Lc.map Prod.snd).flatten ++ (((r, bs) :: L).map Prod.snd).flatten =
              ((Lc ++ (r, bs) :: L).map Prod.snd).flatten := by simp
          have hcur : runes ((Lc.map Prod.snd).flatten) = Lc :=
            runes_head Lc ((r, bs) :: L) _ ((((r, bs) :: L).map Prod.snd).flatten)
              (by rw [hsplit]; exact hinv) rfl
          refine ⟨hne, ?_⟩
          rw [Fields, hcur, fieldsOf_no_space Lc [] hns]
          simp [hne]
        · exact hrest t h1
    · have hr' : IsSpace r = false := by simpa using hr
      simp only [hr', Bool.false_eq_true, if_false] at ht
      have := ih (Lc ++ [(r, bs)]) (by rw [hassoc]; exact hinv)
        (by
          intro e he
          rcases List.mem_append.1 he with h1 | h1
          · exact hns e h1
          · simp only [List.mem_singleton] at h1
            rw [h1]; exact hr')
      apply this
      simpa using ht

/-- Every field that `Fields` cuts out of a string is not empty and is itself a single
field: it contains no white space. -/
theorem Fields_tokens (s : List UInt8) : ∀ t ∈ Fields s, t ≠ [] ∧ Fields t = [t] := by
  have := fieldsOf_tokens (runes s) [] (by simp [runes_bytes]) (by simp)
  simpa [Fields] using this

theorem lookup_mem_values (l : List (List UInt8 × List UInt8)) (k d : List UInt8)
    (h : l.lookup k = some d) : d ∈ l.map Prod.snd := by
  induction l with
  | nil => simp [List.lookup] at h
  | cons e l ih =>
    obtain ⟨a, b⟩ := e
    rw [List.lookup] at h
    split at h
    · simp only [Option.some.injEq] at h
      simp [h]
    · simp [ih h]

theorem checkAliasInTestDB_value (a : List UInt8) :
    checkAliasInTestDB a = [] ∨ Fields (checkAliasInTestDB a) = [checkAliasInTestDB a] := by
  unfold checkAliasInTestDB
  cases h : aliases.lookup (ToLower a) with
  | none => exact Or.inl rfl
  | some d =>
    have hm := lookup_mem_values _ _ _ h
    have hall : ∀ v ∈ aliases.map Prod.snd, Fields v = [v] := by decide
    exact Or.inr (hall d hm)

/-- C18. Every response is one of the four wire texts. Whatever the request, the cache and
the clock, `processRequest` answers `NOTFOUND`, or the bare `OK`, or
`PERM invalid request format`, or `OK` and a space followed by a value that is not empty
and is a single field, that is, contains no white space. -/
theorem processRequest_response_shape (st : State) (now : Nat) (line : List UInt8) :
    (processRequest st now line).1 = bytes "NOTFOUND"
    ∨ (processRequest st now line).1 = bytes "OK"
    ∨ (processRequest st now line).1 = bytes "PERM invalid request format"
    ∨ ∃ v, (processRequest st now line).1 = bytes "OK " ++ v ∧ v ≠ [] ∧ Fields v = [v] := by
  unfold processRequest
  split
  · rename_i mapname key hf
    have hkey := Fields_tokens line key (by rw [hf]; simp)
    split
    · unfold handleUserExistsMap
      simp only
      split
      · exact Or.inr (Or.inr (Or.inr ⟨key, rfl, hkey⟩))
      · exact Or.inl rfl
    · split
      · unfold handleVirtualDomainsMap
        simp only
        split
        · exact Or.inr (Or.inl rfl)
        · exact Or.inl rfl
      · split
        · unfold handleVirtualAliasesMap
          simp only
          split
          · rename_i hne
            have hd : (resolveAlias st now key).1 = checkAliasInTestDB key := rfl
            rw [hd] at hne ⊢
            rcases checkAliasInTestDB_value key with h0 | h0
            · exact absurd h0 hne
            · exact Or.inr (Or.inr (Or.inr ⟨_, rfl, hne, h0⟩))
          · exact Or.inl rfl
        · exact Or.inl rfl
  · exact Or.inr (Or.inr (Or.inl rfl))

end Socketmap
